import Mathlib

/-!
Redirect policies of `req` (redirect.go).

A shallow embedding of `redirect.go`: the six redirect policies and the two helpers
`getHostname` and `getDomain`, together with the pieces of the Go standard library they
call (`strings.Index`, `strings.ToLower`, `strings.Split`, `strings.Join`,
`net.SplitHostPort`).

Modelling conventions.

* A Go `string` is the sequence of elements a `for range` loop decodes from it (`GoString`):
  each element is a well-formed rune or a single byte that is part of no well-formed rune.
  Every separator the code looks for (`:`, `.`, `[`, `]`) is a one-byte rune, so positions
  counted in elements cut a string at the same places as positions counted in bytes.
* `strings.ToLower` maps every rune through `unicode.ToLower` (the ASCII rule of its first
  lines, the case table above U+007F) and rewrites every byte outside a well-formed rune to
  U+FFFD, as `strings.Map` does.
* A run-time panic (index or slice out of range) is the value `none`; an expression that
  cannot panic evaluates to `some _`.
* A Go `error` is `Error.nil` or `Error.New msg`, identified by its message.
* A request is represented by its `URL.Host` string, a redirect chain `via` by the list of
  the `URL.Host` strings of its requests, oldest first.
-/

namespace Req

/-- One element of a Go string as `for range` decodes it: a well-formed rune, or a byte
that belongs to no well-formed rune (decoded as `utf8.RuneError` with width 1). -/
inductive Rune where
  | char (c : Char) : Rune
  | byte (b : UInt8) : Rune
  deriving Repr

instance : DecidableEq Rune := fun x y =>
  match x, y with
  | Rune.char c, Rune.char d =>
    if h : c = d then isTrue (congrArg Rune.char h)
    else isFalse (fun e => h (Rune.char.inj e))
  | Rune.byte a, Rune.byte b =>
    if h : a = b then isTrue (congrArg Rune.byte h)
    else isFalse (fun e => h (Rune.byte.inj e))
  | Rune.char _, Rune.byte _ => isFalse (fun e => Rune.noConfusion e)
  | Rune.byte _, Rune.char _ => isFalse (fun e => Rune.noConfusion e)

/-- A Go string, as its sequence of elements. -/
abbrev GoString := List Rune

/-- The Go string written as the literal `s`. -/
def str (s : String) : GoString := s.toList.map Rune.char

/-- A Go `error` value: `nil`, or an error carrying a message. -/
inductive Error where
  | nil : Error
  | New (msg : String) : Error
  deriving DecidableEq, Repr

/-! ## Standard library pieces -/

/-- Index expression `s[i]`; `none` is the out-of-range panic. -/
def byteAt (s : GoString) (i : Int) : Option Rune :=
  if 0 ≤ i then s.get? i.toNat else none

/-- Slice expression `s[lo:hi]`; `none` is the out-of-range panic
(Go requires `0 ≤ lo ≤ hi ≤ len(s)`). -/
def slice {α : Type} (s : List α) (lo hi : Int) : Option (List α) :=
  if 0 ≤ lo ∧ lo ≤ hi ∧ hi ≤ (s.length : Int) then
    some ((s.take hi.toNat).drop lo.toNat)
  else none

/-- Slice expression `s[lo:]`, that is `s[lo:len(s)]`. -/
def sliceFrom {α : Type} (s : List α) (lo : Int) : Option (List α) :=
  slice s lo (s.length : Int)

/-- Slice expression `s[:hi]`, that is `s[0:hi]`. -/
def sliceTo {α : Type} (s : List α) (hi : Int) : Option (List α) :=
  slice s 0 hi

/-- Position of the first occurrence of the one-byte separator `c` in `s`, or `-1`:
`strings.Index(s, string(c))` and `bytealg.IndexByteString(s, c)`. -/
def IndexByte : GoString → Rune → Int
  | [], _ => -1
  | x :: xs, c =>
    if x = c then 0
    else
      let r := IndexByte xs c
      if r < 0 then -1 else r + 1

/-- Position of the last occurrence of `c` in `s`, or `-1`:
`bytealg.LastIndexByteString(s, c)`. -/
def LastIndexByte : GoString → Rune → Int
  | [], _ => -1
  | x :: xs, c =>
    let r := LastIndexByte xs c
    if 0 ≤ r then r + 1
    else if x = c then 0 else -1

/-- One entry of a case table: the runes `Lo`..`Hi` and the amount `unicode.ToLower` adds
to them; `UpperLower` marks an alternating sequence, upper-case letters at the even offsets
and their lower-case letters at the odd ones (`unicode.UpperLower`). -/
structure CaseRange where
  Lo : Nat
  Hi : Nat
  Delta : Int
  UpperLower : Bool

/-- The lower-case mapping of `unicode.CaseRanges` above U+007F, range by range and in
increasing order: every rune that `unicode.ToLower` changes lies in one of these ranges
(simple lower-case mappings of the Unicode Character Database, version 14.0.0). -/
def CaseRanges : List CaseRange := [
  CaseRange.mk 0x00C0 0x00D6 32 false,
  CaseRange.mk 0x00D8 0x00DE 32 false,
  CaseRange.mk 0x0100 0x012F 1 true,
  CaseRange.mk 0x0130 0x0130 (-199) false,
  CaseRange.mk 0x0132 0x0137 1 true,
  CaseRange.mk 0x0139 0x0148 1 true,
  CaseRange.mk 0x014A 0x0177 1 true,
  CaseRange.mk 0x0178 0x0178 (-121) false,
  CaseRange.mk 0x0179 0x017E 1 true,
  CaseRange.mk 0x0181 0x0181 210 false,
  CaseRange.mk 0x0182 0x0185 1 true,
  CaseRange.mk 0x0186 0x0186 206 false,
  CaseRange.mk 0x0187 0x0187 1 false,
  CaseRange.mk 0x0189 0x018A 205 false,
  CaseRange.mk 0x018B 0x018B 1 false,
  CaseRange.mk 0x018E 0x018E 79 false,
  CaseRange.mk 0x018F 0x018F 202 false,
  CaseRange.mk 0x0190 0x0190 203 false,
  CaseRange.mk 0x0191 0x0191 1 false,
  CaseRange.mk 0x0193 0x0193 205 false,
  CaseRange.mk 0x0194 0x0194 207 false,
  CaseRange.mk 0x0196 0x0196 211 false,
  CaseRange.mk 0x0197 0x0197 209 false,
  CaseRange.mk 0x0198 0x0198 1 false,
  CaseRange.mk 0x019C 0x019C 211 false,
  CaseRange.mk 0x019D 0x019D 213 false,
  CaseRange.mk 0x019F 0x019F 214 false,
  CaseRange.mk 0x01A0 0x01A5 1 true,
  CaseRange.mk 0x01A6 0x01A6 218 false,
  CaseRange.mk 0x01A7 0x01A7 1 false,
  CaseRange.mk 0x01A9 0x01A9 218 false,
  CaseRange.mk 0x01AC 0x01AC 1 false,
  CaseRange.mk 0x01AE 0x01AE 218 false,
  CaseRange.mk 0x01AF 0x01AF 1 false,
  CaseRange.mk 0x01B1 0x01B2 217 false,
  CaseRange.mk 0x01B3 0x01B6 1 true,
  CaseRange.mk 0x01B7 0x01B7 219 false,
  CaseRange.mk 0x01B8 0x01B8 1 false,
  CaseRange.mk 0x01BC 0x01BC 1 false,
  CaseRange.mk 0x01C4 0x01C4 2 false,
  CaseRange.mk 0x01C5 0x01C5 1 false,
  CaseRange.mk 0x01C7 0x01C7 2 false,
  CaseRange.mk 0x01C8 0x01C8 1 false,
  CaseRange.mk 0x01CA 0x01CA 2 false,
  CaseRange.mk 0x01CB 0x01DC 1 true,
  CaseRange.mk 0x01DE 0x01EF 1 true,
  CaseRange.mk 0x01F1 0x01F1 2 false,
  CaseRange.mk 0x01F2 0x01F5 1 true,
  CaseRange.mk 0x01F6 0x01F6 (-97) false,
  CaseRange.mk 0x01F7 0x01F7 (-56) false,
  CaseRange.mk 0x01F8 0x021F 1 true,
  CaseRange.mk 0x0220 0x0220 (-130) false,
  CaseRange.mk 0x0222 0x0233 1 true,
  CaseRange.mk 0x023A 0x023A 10795 false,
  CaseRange.mk 0x023B 0x023B 1 false,
  CaseRange.mk 0x023D 0x023D (-163) false,
  CaseRange.mk 0x023E 0x023E 10792 false,
  CaseRange.mk 0x0241 0x0241 1 false,
  CaseRange.mk 0x0243 0x0243 (-195) false,
  CaseRange.mk 0x0244 0x0244 69 false,
  CaseRange.mk 0x0245 0x0245 71 false,
  CaseRange.mk 0x0246 0x024F 1 true,
  CaseRange.mk 0x0370 0x0373 1 true,
  CaseRange.mk 0x0376 0x0376 1 false,
  CaseRange.mk 0x037F 0x037F 116 false,
  CaseRange.mk 0x0386 0x0386 38 false,
  CaseRange.mk 0x0388 0x038A 37 false,
  CaseRange.mk 0x038C 0x038C 64 false,
  CaseRange.mk 0x038E 0x038F 63 false,
  CaseRange.mk 0x0391 0x03A1 32 false,
  CaseRange.mk 0x03A3 0x03AB 32 false,
  CaseRange.mk 0x03CF 0x03CF 8 false,
  CaseRange.mk 0x03D8 0x03EF 1 true,
  CaseRange.mk 0x03F4 0x03F4 (-60) false,
  CaseRange.mk 0x03F7 0x03F7 1 false,
  CaseRange.mk 0x03F9 0x03F9 (-7) false,
  CaseRange.mk 0x03FA 0x03FA 1 false,
  CaseRange.mk 0x03FD 0x03FF (-130) false,
  CaseRange.mk 0x0400 0x040F 80 false,
  CaseRange.mk 0x0410 0x042F 32 false,
  CaseRange.mk 0x0460 0x0481 1 true,
  CaseRange.mk 0x048A 0x04BF 1 true,
  CaseRange.mk 0x04C0 0x04C0 15 false,
  CaseRange.mk 0x04C1 0x04CE 1 true,
  CaseRange.mk 0x04D0 0x052F 1 true,
  CaseRange.mk 0x0531 0x0556 48 false,
  CaseRange.mk 0x10A0 0x10C5 7264 false,
  CaseRange.mk 0x10C7 0x10C7 7264 false,
  CaseRange.mk 0x10CD 0x10CD 7264 false,
  CaseRange.mk 0x13A0 0x13EF 38864 false,
  CaseRange.mk 0x13F0 0x13F5 8 false,
  CaseRange.mk 0x1C90 0x1CBA (-3008) false,
  CaseRange.mk 0x1CBD 0x1CBF (-3008) false,
  CaseRange.mk 0x1E00 0x1E95 1 true,
  CaseRange.mk 0x1E9E 0x1E9E (-7615) false,
  CaseRange.mk 0x1EA0 0x1EFF 1 true,
  CaseRange.mk 0x1F08 0x1F0F (-8) false,
  CaseRange.mk 0x1F18 0x1F1D (-8) false,
  CaseRange.mk 0x1F28 0x1F2F (-8) false,
  CaseRange.mk 0x1F38 0x1F3F (-8) false,
  CaseRange.mk 0x1F48 0x1F4D (-8) false,
  CaseRange.mk 0x1F59 0x1F59 (-8) false,
  CaseRange.mk 0x1F5B 0x1F5B (-8) false,
  CaseRange.mk 0x1F5D 0x1F5D (-8) false,
  CaseRange.mk 0x1F5F 0x1F5F (-8) false,
  CaseRange.mk 0x1F68 0x1F6F (-8) false,
  CaseRange.mk 0x1F88 0x1F8F (-8) false,
  CaseRange.mk 0x1F98 0x1F9F (-8) false,
  CaseRange.mk 0x1FA8 0x1FAF (-8) false,
  CaseRange.mk 0x1FB8 0x1FB9 (-8) false,
  CaseRange.mk 0x1FBA 0x1FBB (-74) false,
  CaseRange.mk 0x1FBC 0x1FBC (-9) false,
  CaseRange.mk 0x1FC8 0x1FCB (-86) false,
  CaseRange.mk 0x1FCC 0x1FCC (-9) false,
  CaseRange.mk 0x1FD8 0x1FD9 (-8) false,
  CaseRange.mk 0x1FDA 0x1FDB (-100) false,
  CaseRange.mk 0x1FE8 0x1FE9 (-8) false,
  CaseRange.mk 0x1FEA 0x1FEB (-112) false,
  CaseRange.mk 0x1FEC 0x1FEC (-7) false,
  CaseRange.mk 0x1FF8 0x1FF9 (-128) false,
  CaseRange.mk 0x1FFA 0x1FFB (-126) false,
  CaseRange.mk 0x1FFC 0x1FFC (-9) false,
  CaseRange.mk 0x2126 0x2126 (-7517) false,
  CaseRange.mk 0x212A 0x212A (-8383) false,
  CaseRange.mk 0x212B 0x212B (-8262) false,
  CaseRange.mk 0x2132 0x2132 28 false,
  CaseRange.mk 0x2160 0x216F 16 false,
  CaseRange.mk 0x2183 0x2183 1 false,
  CaseRange.mk 0x24B6 0x24CF 26 false,
  CaseRange.mk 0x2C00 0x2C2F 48 false,
  CaseRange.mk 0x2C60 0x2C60 1 false,
  CaseRange.mk 0x2C62 0x2C62 (-10743) false,
  CaseRange.mk 0x2C63 0x2C63 (-3814) false,
  CaseRange.mk 0x2C64 0x2C64 (-10727) false,
  CaseRange.mk 0x2C67 0x2C6C 1 true,
  CaseRange.mk 0x2C6D 0x2C6D (-10780) false,
  CaseRange.mk 0x2C6E 0x2C6E (-10749) false,
  CaseRange.mk 0x2C6F 0x2C6F (-10783) false,
  CaseRange.mk 0x2C70 0x2C70 (-10782) false,
  CaseRange.mk 0x2C72 0x2C72 1 false,
  CaseRange.mk 0x2C75 0x2C75 1 false,
  CaseRange.mk 0x2C7E 0x2C7F (-10815) false,
  CaseRange.mk 0x2C80 0x2CE3 1 true,
  CaseRange.mk 0x2CEB 0x2CEE 1 true,
  CaseRange.mk 0x2CF2 0x2CF2 1 false,
  CaseRange.mk 0xA640 0xA66D 1 true,
  CaseRange.mk 0xA680 0xA69B 1 true,
  CaseRange.mk 0xA722 0xA72F 1 true,
  CaseRange.mk 0xA732 0xA76F 1 true,
  CaseRange.mk 0xA779 0xA77C 1 true,
  CaseRange.mk 0xA77D 0xA77D (-35332) false,
  CaseRange.mk 0xA77E 0xA787 1 true,
  CaseRange.mk 0xA78B 0xA78B 1 false,
  CaseRange.mk 0xA78D 0xA78D (-42280) false,
  CaseRange.mk 0xA790 0xA793 1 true,
  CaseRange.mk 0xA796 0xA7A9 1 true,
  CaseRange.mk 0xA7AA 0xA7AA (-42308) false,
  CaseRange.mk 0xA7AB 0xA7AB (-42319) false,
  CaseRange.mk 0xA7AC 0xA7AC (-42315) false,
  CaseRange.mk 0xA7AD 0xA7AD (-42305) false,
  CaseRange.mk 0xA7AE 0xA7AE (-42308) false,
  CaseRange.mk 0xA7B0 0xA7B0 (-42258) false,
  CaseRange.mk 0xA7B1 0xA7B1 (-42282) false,
  CaseRange.mk 0xA7B2 0xA7B2 (-42261) false,
  CaseRange.mk 0xA7B3 0xA7B3 928 false,
  CaseRange.mk 0xA7B4 0xA7C3 1 true,
  CaseRange.mk 0xA7C4 0xA7C4 (-48) false,
  CaseRange.mk 0xA7C5 0xA7C5 (-42307) false,
  CaseRange.mk 0xA7C6 0xA7C6 (-35384) false,
  CaseRange.mk 0xA7C7 0xA7CA 1 true,
  CaseRange.mk 0xA7D0 0xA7D0 1 false,
  CaseRange.mk 0xA7D6 0xA7D9 1 true,
  CaseRange.mk 0xA7F5 0xA7F5 1 false,
  CaseRange.mk 0xFF21 0xFF3A 32 false,
  CaseRange.mk 0x10400 0x10427 40 false,
  CaseRange.mk 0x104B0 0x104D3 40 false,
  CaseRange.mk 0x10570 0x1057A 39 false,
  CaseRange.mk 0x1057C 0x1058A 39 false,
  CaseRange.mk 0x1058C 0x10592 39 false,
  CaseRange.mk 0x10594 0x10595 39 false,
  CaseRange.mk 0x10C80 0x10CB2 64 false,
  CaseRange.mk 0x118A0 0x118BF 32 false,
  CaseRange.mk 0x16E40 0x16E5F 32 false,
  CaseRange.mk 0x1E900 0x1E921 34 false]

/-- The mapping inside the range found by the search of `unicode.to`:
`Lo + ((r-Lo)&^1 | 1)` in an alternating sequence, `r + delta` otherwise. -/
def CaseRange.apply (cr : CaseRange) (r : Nat) : Nat :=
  if cr.UpperLower then cr.Lo + ((r - cr.Lo) / 2 * 2 + 1)
  else ((r : Int) + cr.Delta).toNat

/-- The search of `unicode.to(LowerCase, r, caseRange)`: the range that holds `r` decides,
and a rune in no range is returned as it is. -/
def toLowerIn : List CaseRange → Nat → Nat
  | [], r => r
  | cr :: rest, r => if cr.Lo ≤ r ∧ r ≤ cr.Hi then cr.apply r else toLowerIn rest r

/-- Model of `unicode.ToLower` on a code point:
`if r <= MaxASCII { if 'A' <= r && r <= 'Z' { r += 'a' - 'A' }; return r }`, and the case
table otherwise. -/
def unicodeToLower (r : Nat) : Nat :=
  if r ≤ 127 then
    if 65 ≤ r ∧ r ≤ 90 then r + 32 else r
  else toLowerIn CaseRanges r

/-- What `strings.ToLower` writes for one element of its argument: the lower-case rune, and
U+FFFD for a byte outside a well-formed rune. -/
def lowerRune : Rune → Rune
  | Rune.char c => Rune.char (Char.ofNat (unicodeToLower c.toNat))
  | Rune.byte _ => Rune.char (Char.ofNat 0xFFFD)

/-- Model of `strings.ToLower`. -/
def ToLower (s : GoString) : GoString := s.map lowerRune

/-- Model of `strings.Split(s, string(sep))` for a one-byte separator: the pieces of `s`
between the occurrences of `sep`; always at least one piece. -/
def Split : GoString → Rune → List GoString
  | [], _ => [[]]
  | x :: xs, sep =>
    if x = sep then [] :: Split xs sep
    else
      match Split xs sep with
      | [] => [[x]]
      | p :: ps => (x :: p) :: ps

/-- Model of `strings.Join(ss, string(sep))`. -/
def Join : List GoString → Rune → GoString
  | [], _ => []
  | [p], _ => p
  | p :: q :: ps, sep => p ++ sep :: Join (q :: ps) sep

/-- The error result of `net.SplitHostPort`: `return "", "", &AddrError{Err: why, ...}`. -/
def addrErr (why : String) : GoString × GoString × Error := ([], [], Error.New why)

/-- The common tail of `net.SplitHostPort`, after `host`, `j` and `k` are set:
the two bracket checks and the extraction of the port. -/
def splitHostPortTail (hostport host : GoString) (i j k : Int) :
    Option (GoString × GoString × Error) := do
  let sj ← sliceFrom hostport j
  if 0 ≤ IndexByte sj (Rune.char '[') then
    pure (addrErr "unexpected '[' in address")
  else do
    let sk ← sliceFrom hostport k
    if 0 ≤ IndexByte sk (Rune.char ']') then
      pure (addrErr "unexpected ']' in address")
    else do
      let port ← sliceFrom hostport (i + 1)
      pure (host, port, Error.nil)

/-- Model of `net.SplitHostPort(hostport)`, returning `(host, port, err)`. -/
def SplitHostPort (hostport : GoString) : Option (GoString × GoString × Error) :=
  let i := LastIndexByte hostport (Rune.char ':')
  if i < 0 then
    pure (addrErr "missing port in address")
  else do
    let c0 ← byteAt hostport 0
    if c0 = Rune.char '[' then
      let e := IndexByte hostport (Rune.char ']')
      if e < 0 then
        pure (addrErr "missing ']' in address")
      else if e + 1 = (hostport.length : Int) then
        pure (addrErr "missing port in address")
      else if e + 1 = i then do
        let host ← slice hostport 1 e
        splitHostPortTail hostport host i 1 (e + 1)
      else do
        let c ← byteAt hostport (e + 1)
        if c = Rune.char ':' then
          pure (addrErr "too many colons in address")
        else
          pure (addrErr "missing port in address")
    else do
      let host ← sliceTo hostport i
      if 0 ≤ IndexByte host (Rune.char ':') then
        pure (addrErr "too many colons in address")
      else
        splitHostPortTail hostport host i 0 0

/-! ## redirect.go -/

/-- The function `getHostname` of redirect.go. -/
def getHostname (host : GoString) : Option GoString := do
  let host ←
    if 0 < IndexByte host (Rune.char ':') then do
      let r ← SplitHostPort host
      pure r.1
    else pure host
  pure (ToLower host)

/-- The function `getDomain` of redirect.go. -/
def getDomain (host : GoString) : Option GoString := do
  let host ← getHostname host
  let ss := Split host (Rune.char '.')
  if ss.length < 3 then
    pure host
  else do
    let ss ← sliceFrom ss 1
    pure (Join ss (Rune.char '.'))

/-- The type `RedirectPolicy`: the candidate request and the chain `via`, each request
given by its `URL.Host`. -/
abbrev RedirectPolicy := GoString → List GoString → Option Error

/-- Index expression `via[0]` and its siblings on a chain. -/
def chainAt (via : List GoString) (i : Int) : Option GoString :=
  if 0 ≤ i then via.get? i.toNat else none

/-- Model of `fmt.Errorf("stopped after %d redirects", n)`. -/
def stoppedAfter (n : Int) : Error :=
  Error.New ("stopped after " ++ toString n ++ " redirects")

/-- The constructor `MaxRedirectPolicy` of redirect.go. -/
def MaxRedirectPolicy (noOfRedirect : Int) : RedirectPolicy := fun _req via =>
  if noOfRedirect ≤ (via.length : Int) then
    pure (stoppedAfter noOfRedirect)
  else pure Error.nil

/-- The constructor `NoRedirectPolicy` of redirect.go. -/
def NoRedirectPolicy : RedirectPolicy := fun _req _via =>
  pure (Error.New "auto redirect is disabled")

/-- The constructor `SameDomainRedirectPolicy` of redirect.go. -/
def SameDomainRedirectPolicy : RedirectPolicy := fun req via => do
  let a ← getDomain req
  let v0 ← chainAt via 0
  let b ← getDomain v0
  if a ≠ b then
    pure (Error.New "different domain name is not allowed")
  else pure Error.nil

/-- The constructor `SameHostRedirectPolicy` of redirect.go. -/
def SameHostRedirectPolicy : RedirectPolicy := fun req via => do
  let a ← getHostname req
  let v0 ← chainAt via 0
  let b ← getHostname v0
  if a ≠ b then
    pure (Error.New "different host name is not allowed")
  else pure Error.nil

/-- A Go `map[string]bool`: the value stored under each key, if any. -/
abbrev GoMap := GoString → Option Bool

/-- The empty map, `make(map[string]bool)`. -/
def GoMap.empty : GoMap := fun _ => none

/-- The assignment `m[k] = v`. -/
def GoMap.set (m : GoMap) (k : GoString) (v : Bool) : GoMap :=
  fun x => if x = k then some v else m x

/-- The `ok` of `_, ok := m[k]`. -/
def GoMap.has (m : GoMap) (k : GoString) : Bool := (m k).isSome

/-- The loop `for _, h := range hosts { m[strings.ToLower(getHostname(h))] = true }`. -/
def hostSet : List GoString → GoMap → Option GoMap
  | [], m => pure m
  | h :: hs, m => do
    let k ← getHostname h
    hostSet hs (m.set (ToLower k) true)

/-- The loop `for _, h := range hosts { domains[strings.ToLower(getDomain(h))] = true }`. -/
def domainSet : List GoString → GoMap → Option GoMap
  | [], m => pure m
  | h :: hs, m => do
    let k ← getDomain h
    domainSet hs (m.set (ToLower k) true)

/-- The constructor `AllowedHostRedirectPolicy` of redirect.go: the set is built when the
policy is constructed, the returned closure only looks the candidate up. -/
def AllowedHostRedirectPolicy (hosts : List GoString) : Option RedirectPolicy := do
  let m ← hostSet hosts GoMap.empty
  pure fun req _via => do
    let k ← getHostname req
    if !(m.has k) then
      pure (Error.New "redirect host is not allowed")
    else pure Error.nil

/-- The constructor `AllowedDomainRedirectPolicy` of redirect.go. -/
def AllowedDomainRedirectPolicy (hosts : List GoString) : Option RedirectPolicy := do
  let domains ← domainSet hosts GoMap.empty
  pure fun req _via => do
    let k ← getDomain req
    if !(domains.has k) then
      pure (Error.New "redirect domain is not allowed")
    else pure Error.nil

/-! ## Auxiliary definitions used to state the properties -/

/-- What `getDomain` computes from the result of `getHostname`: the body of `getDomain`
after its first line. -/
def domainOf (h : GoString) : GoString :=
  if (Split h (Rune.char '.')).length < 3 then h else Join (Split h (Rune.char '.')).tail (Rune.char '.')

/-- Construct a policy and evaluate it once: `ctor(hosts...)(req, via)`. -/
def runPolicy (p : Option RedirectPolicy) (req : GoString) (via : List GoString) :
    Option Error :=
  p.bind fun f => f req via

/-- A policy result that is a returned error (the redirect is rejected). -/
def isRejected (r : Option Error) : Bool :=
  match r with
  | some (Error.New _) => true
  | _ => false

/-- A policy result that is a returned `nil` (the redirect is allowed). -/
def isAllowed (r : Option Error) : Bool :=
  match r with
  | some Error.nil => true
  | _ => false

/-- A decimal digit. -/
def Rune.isDigit : Rune → Bool
  | Rune.char c => c.isDigit
  | Rune.byte _ => false

/-- A rune that `toLowerIn` leaves alone on account of the range `f`: outside the range, or
at an odd offset of an alternating sequence. -/
def FixedBy (f : CaseRange) (m : Nat) : Prop :=
  ¬ (f.Lo ≤ m ∧ m ≤ f.Hi) ∨ (f.UpperLower = true ∧ (m - f.Lo) % 2 = 1)

/-- Check that no range of the table meets the runes `a`..`b`, a single rune at an odd
offset of an alternating sequence apart. -/
def avoids : List CaseRange → Nat → Nat → Bool → Bool
  | [], _, _, _ => true
  | f :: fs, a, b, single =>
    (Nat.blt b f.Lo || Nat.blt f.Hi a ||
      (single && f.UpperLower && Nat.ble f.Lo a && Nat.beq ((a - f.Lo) % 2) 1)) &&
    avoids fs a b single

/-- Check that no range of the table meets `lo`..`hi`, the alternating sequence that starts
at `lo` apart. -/
def avoidsAlt : List CaseRange → Nat → Nat → Bool
  | [], _, _ => true
  | f :: fs, lo, hi =>
    (Nat.blt f.Hi lo || Nat.blt hi f.Lo || (f.UpperLower && Nat.beq f.Lo lo)) &&
    avoidsAlt fs lo hi

/-- Check, range by range, that the lower-case images of the table are `a` or above and lie
where the table changes nothing. -/
def consistent (t : List CaseRange) : List CaseRange → Bool
  | [] => true
  | e :: es =>
    (if e.UpperLower then
      Nat.beq ((e.Hi - e.Lo) % 2) 1 && Nat.ble 128 e.Lo && avoidsAlt t e.Lo e.Hi
    else
      Nat.ble 97 (e.apply e.Lo) &&
        avoids t (e.apply e.Lo) (e.apply e.Hi) (Nat.beq e.Lo e.Hi)) &&
    consistent t es

/-- The words "the host with an optional trailing `:port` removed", read on their own: when
the text after the last `:` is a run of decimal digits (possibly empty), that colon and the
digits are dropped; a host without such a suffix is kept whole. -/
def withoutPort (s : GoString) : GoString :=
  let i := LastIndexByte s (Rune.char ':')
  if 0 ≤ i ∧ (s.drop (i.toNat + 1)).all Rune.isDigit = true then s.take i.toNat else s

/-- The words "the text of `s` before its last `:`" (the whole of `s` when there is none). -/
def beforeLastColon (s : GoString) : GoString :=
  let i := LastIndexByte s (Rune.char ':')
  if 0 ≤ i then s.take i.toNat else s

/-- Lower-casing of the three results of `net.SplitHostPort`, the error kept. -/
def lowerSplit (r : GoString × GoString × Error) : GoString × GoString × Error :=
  (ToLower r.1, ToLower r.2.1, r.2.2)

/-- The text of the error of `MaxRedirectPolicy`:
`fmt.Sprintf("stopped after %d redirects", n)`. -/
def stoppedAfterText (n : Int) : String :=
  "stopped after " ++ toString n ++ " redirects"

/-- The set `{ getHostname(h) : h in hosts }` of the spec's words, built without the extra
`strings.ToLower`: the loop `for _, h := range hosts { m[getHostname(h)] = true }`. -/
def hostKeySet : List GoString → GoMap → Option GoMap
  | [], m => pure m
  | h :: hs, m => do
    let k ← getHostname h
    hostKeySet hs (m.set k true)

/-- The set `{ getDomain(h) : h in hosts }` of the spec's words, built without the extra
`strings.ToLower`. -/
def domainKeySet : List GoString → GoMap → Option GoMap
  | [], m => pure m
  | h :: hs, m => do
    let k ← getDomain h
    domainKeySet hs (m.set k true)

/-! ## Basic facts about the library pieces -/

theorem IndexByte_ge (s : GoString) (c : Rune) : -1 ≤ IndexByte s c := by
  induction s with
  | nil => simp [IndexByte]
  | cons x xs ih =>
    simp only [IndexByte]
    split_ifs <;> omega

theorem IndexByte_lt (s : GoString) (c : Rune) : IndexByte s c < (s.length : Int) := by
  induction s with
  | nil => simp [IndexByte]
  | cons x xs ih =>
    simp only [IndexByte, List.length_cons, Nat.cast_add, Nat.cast_one]
    split_ifs <;> omega

theorem LastIndexByte_ge (s : GoString) (c : Rune) : -1 ≤ LastIndexByte s c := by
  induction s with
  | nil => simp [LastIndexByte]
  | cons x xs ih =>
    simp only [LastIndexByte]
    split_ifs <;> omega

theorem LastIndexByte_lt (s : GoString) (c : Rune) :
    LastIndexByte s c < (s.length : Int) := by
  induction s with
  | nil => simp [LastIndexByte]
  | cons x xs ih =>
    simp only [LastIndexByte, List.length_cons, Nat.cast_add, Nat.cast_one]
    split_ifs <;> omega

theorem IndexByte_neg_iff (s : GoString) (c : Rune) : IndexByte s c < 0 ↔ c ∉ s := by
  induction s with
  | nil => simp [IndexByte]
  | cons x xs ih =>
    have hge := IndexByte_ge xs c
    simp only [IndexByte, List.mem_cons, not_or]
    by_cases hx : x = c
    · subst hx; simp
    · have hx2 : ¬ c = x := fun h => hx h.symm
      simp only [hx, if_false, hx2, not_false_eq_true, true_and]
      rw [← ih]
      split_ifs <;> omega

theorem LastIndexByte_neg_iff (s : GoString) (c : Rune) :
    LastIndexByte s c < 0 ↔ c ∉ s := by
  induction s with
  | nil => simp [LastIndexByte]
  | cons x xs ih =>
    have hge := LastIndexByte_ge xs c
    simp only [LastIndexByte, List.mem_cons, not_or]
    by_cases hx : x = c
    · subst hx
      simp only [not_true_eq_false, false_and, iff_false]
      split_ifs <;> omega
    · have hx2 : ¬ c = x := fun h => hx h.symm
      simp only [hx, if_false, hx2, not_false_eq_true, true_and]
      rw [← ih]
      split_ifs <;> omega

theorem IndexByte_of_not_mem {s : GoString} {c : Rune} (h : c ∉ s) : IndexByte s c = -1 := by
  have h1 := (IndexByte_neg_iff s c).2 h
  have h2 := IndexByte_ge s c
  omega

theorem IndexByte_append_cons (pre post : GoString) (c : Rune) (h : c ∉ pre) :
    IndexByte (pre ++ c :: post) c = (pre.length : Int) := by
  induction pre with
  | nil => simp [IndexByte]
  | cons x xs ih =>
    have hx : ¬ x = c := fun e => h (by simp [e])
    have hxs : c ∉ xs := fun e => h (by simp [e])
    have ih2 := ih hxs
    rw [List.cons_append]
    simp only [IndexByte, hx, if_false, ih2, List.length_cons, Nat.cast_add, Nat.cast_one]
    split_ifs <;> omega

theorem LastIndexByte_append_cons (pre post : GoString) (c : Rune) (h : c ∉ post) :
    LastIndexByte (pre ++ c :: post) c = (pre.length : Int) := by
  induction pre with
  | nil =>
    have h1 := (LastIndexByte_neg_iff post c).2 h
    simp only [List.nil_append, LastIndexByte, List.length_nil, Nat.cast_zero]
    split_ifs <;> omega
  | cons x xs ih =>
    rw [List.cons_append]
    simp only [LastIndexByte, ih, List.length_cons, Nat.cast_add, Nat.cast_one]
    split_ifs <;> omega

theorem slice_eq {α : Type} (s : List α) (lo hi : Int)
    (h : 0 ≤ lo ∧ lo ≤ hi ∧ hi ≤ (s.length : Int)) :
    slice s lo hi = some ((s.take hi.toNat).drop lo.toNat) := by
  simp only [slice, if_pos h]

theorem sliceFrom_eq {α : Type} (s : List α) (lo : Int)
    (h : 0 ≤ lo ∧ lo ≤ (s.length : Int)) :
    sliceFrom s lo = some (s.drop lo.toNat) := by
  have h2 : 0 ≤ lo ∧ lo ≤ (s.length : Int) ∧ (s.length : Int) ≤ (s.length : Int) :=
    ⟨h.1, h.2, le_refl _⟩
  simp only [sliceFrom, slice_eq s lo _ h2, Int.toNat_ofNat, List.take_length]

theorem sliceTo_eq {α : Type} (s : List α) (hi : Int)
    (h : 0 ≤ hi ∧ hi ≤ (s.length : Int)) :
    sliceTo s hi = some (s.take hi.toNat) := by
  have h2 : (0 : Int) ≤ 0 ∧ 0 ≤ hi ∧ hi ≤ (s.length : Int) := ⟨le_refl _, h.1, h.2⟩
  simp only [sliceTo, slice_eq s 0 hi h2, Int.toNat_zero, List.drop_zero]

theorem byteAt_zero_of_ne_nil {s : GoString} (h : s ≠ []) : ∃ c, byteAt s 0 = some c := by
  cases s with
  | nil => exact absurd rfl h
  | cons x xs => exact ⟨x, by simp [byteAt]⟩

/-! ## No run-time panic in the helpers -/

theorem IndexByte_ne_zero {s : GoString} {c0 c : Rune} (h0 : byteAt s 0 = some c0)
    (hne : c0 ≠ c) : IndexByte s c ≠ 0 := by
  cases s with
  | nil => simp [byteAt] at h0
  | cons x xs =>
    have hx : x = c0 := by simpa [byteAt] using h0
    have hge := IndexByte_ge xs c
    subst hx
    simp only [IndexByte, hne, if_false]
    split_ifs <;> omega

theorem byteAt_total (s : GoString) (i : Int) (h : 0 ≤ i ∧ i < (s.length : Int)) :
    ∃ c, byteAt s i = some c := by
  have hlt : i.toNat < s.length := by omega
  refine ⟨s.get ⟨i.toNat, hlt⟩, ?_⟩
  simp only [byteAt, if_pos h.1]
  exact List.get?_eq_get hlt

theorem splitHostPortTail_total (hostport host : GoString) (i j k : Int)
    (hj : 0 ≤ j ∧ j ≤ (hostport.length : Int))
    (hk : 0 ≤ k ∧ k ≤ (hostport.length : Int))
    (hi : 0 ≤ i + 1 ∧ i + 1 ≤ (hostport.length : Int)) :
    ∃ r, splitHostPortTail hostport host i j k = some r := by
  simp only [splitHostPortTail, sliceFrom_eq _ _ hj, sliceFrom_eq _ _ hk,
    sliceFrom_eq _ _ hi, Option.bind_eq_bind, Option.some_bind, Option.pure_def]
  split_ifs <;> exact ⟨_, rfl⟩

/-- The model of `net.SplitHostPort` never panics: every index and slice expression in it
is in range. -/
theorem SplitHostPort_total (hostport : GoString) :
    ∃ r, SplitHostPort hostport = some r := by
  have hlt := LastIndexByte_lt hostport (Rune.char ':')
  have hge := LastIndexByte_ge hostport (Rune.char ':')
  have elt := IndexByte_lt hostport (Rune.char ']')
  have ege := IndexByte_ge hostport (Rune.char ']')
  unfold SplitHostPort
  simp only [Option.pure_def, Option.bind_eq_bind]
  by_cases hi : LastIndexByte hostport (Rune.char ':') < 0
  · exact ⟨_, if_pos hi⟩
  · rw [if_neg hi]
    have hne : hostport ≠ [] := by
      intro h
      rw [h] at hi
      exact hi (by simp [LastIndexByte])
    obtain ⟨c0, hc0⟩ := byteAt_zero_of_ne_nil hne
    rw [hc0, Option.some_bind]
    by_cases hb : c0 = Rune.char '['
    · rw [if_pos hb]
      have e0 : IndexByte hostport (Rune.char ']') ≠ 0 :=
        IndexByte_ne_zero hc0 (by rw [hb]; decide)
      by_cases h1 : IndexByte hostport (Rune.char ']') < 0
      · exact ⟨_, if_pos h1⟩
      · rw [if_neg h1]
        by_cases h2 : IndexByte hostport (Rune.char ']') + 1 = (hostport.length : Int)
        · exact ⟨_, if_pos h2⟩
        · rw [if_neg h2]
          by_cases h3 : IndexByte hostport (Rune.char ']') + 1 = LastIndexByte hostport (Rune.char ':')
          · rw [if_pos h3, slice_eq hostport 1 _ ⟨by omega, by omega, by omega⟩,
              Option.some_bind]
            exact splitHostPortTail_total _ _ _ _ _ ⟨by omega, by omega⟩
              ⟨by omega, by omega⟩ ⟨by omega, by omega⟩
          · rw [if_neg h3]
            obtain ⟨c, hc⟩ := byteAt_total hostport (IndexByte hostport (Rune.char ']') + 1)
              ⟨by omega, by omega⟩
            rw [hc, Option.some_bind]
            split_ifs <;> exact ⟨_, rfl⟩
    · rw [if_neg hb, sliceTo_eq hostport _ ⟨by omega, by omega⟩, Option.some_bind]
      split_ifs
      · exact ⟨_, rfl⟩
      · exact splitHostPortTail_total _ _ _ _ _ ⟨by omega, by omega⟩
          ⟨by omega, by omega⟩ ⟨by omega, by omega⟩

/-- The function `getHostname` returns on every string. -/
theorem getHostname_total (host : GoString) : ∃ h, getHostname host = some h := by
  unfold getHostname
  simp only [Option.pure_def, Option.bind_eq_bind]
  split_ifs
  · obtain ⟨r, hr⟩ := SplitHostPort_total host
    exact ⟨ToLower r.1, by simp [hr]⟩
  · exact ⟨ToLower host, by simp⟩

theorem Split_ne_nil (s : GoString) (sep : Rune) : Split s sep ≠ [] := by
  cases s with
  | nil => simp [Split]
  | cons x xs =>
    simp only [Split]
    split_ifs
    · simp
    · split <;> simp

theorem getDomain_eq (host h : GoString) (hh : getHostname host = some h) :
    getDomain host = some (domainOf h) := by
  unfold getDomain domainOf
  simp only [hh, Option.pure_def, Option.bind_eq_bind, Option.some_bind]
  split_ifs with h3
  · rfl
  · have hlen : (1 : Int) ≤ ((Split h (Rune.char '.')).length : Int) := by omega
    rw [sliceFrom_eq _ 1 ⟨by omega, hlen⟩]
    simp

/-- The function `getDomain` returns on every string. -/
theorem getDomain_total (host : GoString) : ∃ d, getDomain host = some d := by
  obtain ⟨h, hh⟩ := getHostname_total host
  exact ⟨_, getDomain_eq host h hh⟩

/-! ## Lower-casing, splitting and joining -/

set_option maxRecDepth 100000 in
set_option maxHeartbeats 4000000 in
theorem CaseRanges_consistent : consistent CaseRanges CaseRanges = true := by
  decide!

theorem avoids_sound (t : List CaseRange) (a b : Nat) (single : Bool)
    (h : avoids t a b single = true) :
    ∀ f ∈ t, b < f.Lo ∨ f.Hi < a ∨
      (single = true ∧ f.UpperLower = true ∧ f.Lo ≤ a ∧ (a - f.Lo) % 2 = 1) := by
  induction t with
  | nil => intro f hf; cases hf
  | cons g gs ih =>
    simp only [avoids, Bool.and_eq_true, Bool.or_eq_true, Nat.blt_eq, Nat.ble_eq,
      Nat.beq_eq] at h
    intro f hf
    rcases List.mem_cons.1 hf with e | hm
    · subst e
      rcases h.1 with (h1 | h1) | ⟨⟨⟨h1, h2⟩, h3⟩, h4⟩
      · exact Or.inl h1
      · exact Or.inr (Or.inl h1)
      · exact Or.inr (Or.inr ⟨h1, h2, h3, h4⟩)
    · exact ih h.2 f hm

theorem avoidsAlt_sound (t : List CaseRange) (lo hi : Nat)
    (h : avoidsAlt t lo hi = true) :
    ∀ f ∈ t, f.Hi < lo ∨ hi < f.Lo ∨ (f.UpperLower = true ∧ f.Lo = lo) := by
  induction t with
  | nil => intro f hf; cases hf
  | cons g gs ih =>
    simp only [avoidsAlt, Bool.and_eq_true, Bool.or_eq_true, Nat.blt_eq,
      Nat.beq_eq] at h
    intro f hf
    rcases List.mem_cons.1 hf with e | hm
    · subst e
      rcases h.1 with (h1 | h1) | ⟨h1, h2⟩
      · exact Or.inl h1
      · exact Or.inr (Or.inl h1)
      · exact Or.inr (Or.inr ⟨h1, h2⟩)
    · exact ih h.2 f hm

/-- What the check `consistent` establishes: every image of a range of `es` is `a` or
above and is left alone by every range of `t`. -/
theorem consistent_sound (t es : List CaseRange) (h : consistent t es = true) :
    ∀ e ∈ es, ∀ f ∈ t, ∀ n, e.Lo ≤ n → n ≤ e.Hi →
      FixedBy f (e.apply n) ∧ 97 ≤ e.apply n := by
  induction es with
  | nil => intro e he; cases he
  | cons g gs ih =>
    simp only [consistent, Bool.and_eq_true] at h
    intro e he
    rcases List.mem_cons.1 he with eq | hm
    · subst eq
      intro f hf n h1 h2
      have hg := h.1
      unfold FixedBy
      cases ha : e.UpperLower with
      | true =>
        simp only [ha, if_true, Bool.and_eq_true, Nat.beq_eq, Nat.ble_eq] at hg
        obtain ⟨⟨hp, hlo⟩, hav⟩ := hg
        have hd := avoidsAlt_sound t e.Lo e.Hi hav f hf
        simp only [CaseRange.apply, ha, if_true]
        constructor
        · rcases hd with hd | hd | ⟨hfa, hd⟩
          · left; omega
          · left; omega
          · right
            refine ⟨hfa, ?_⟩
            rw [hd]
            omega
        · omega
      | false =>
        simp only [ha, Bool.false_eq_true, if_false, Bool.and_eq_true, Nat.ble_eq] at hg
        obtain ⟨h97, hav⟩ := hg
        have hd := avoids_sound t _ _ _ hav f hf
        simp only [CaseRange.apply, ha, Bool.false_eq_true, if_false, Nat.beq_eq]
          at hd h97 ⊢
        constructor
        · rcases hd with hd | hd | ⟨he2, hfa, hle, hodd⟩
          · left; omega
          · left; omega
          · right
            refine ⟨hfa, ?_⟩
            have : n = e.Lo := by omega
            rw [this]
            exact hodd
        · omega
    · exact ih h.2 e hm

theorem toLowerIn_fixed (t : List CaseRange) (m : Nat) (h : ∀ f ∈ t, FixedBy f m) :
    toLowerIn t m = m := by
  induction t with
  | nil => rfl
  | cons f fs ih =>
    have hf := h f (List.mem_cons_self _ _)
    have ih2 := ih (fun g hg => h g (List.mem_cons_of_mem _ hg))
    simp only [toLowerIn]
    split_ifs with hr
    · unfold FixedBy at hf
      rcases hf with hf | ⟨ha, hodd⟩
      · exact absurd hr hf
      · simp only [CaseRange.apply, ha, if_true]
        omega
    · exact ih2

theorem toLowerIn_cases (t : List CaseRange) (n : Nat) :
    toLowerIn t n = n ∨ ∃ e ∈ t, e.Lo ≤ n ∧ n ≤ e.Hi ∧ toLowerIn t n = e.apply n := by
  induction t with
  | nil => exact Or.inl rfl
  | cons f fs ih =>
    simp only [toLowerIn]
    split_ifs with hr
    · exact Or.inr ⟨f, List.mem_cons_self _ _, hr.1, hr.2, rfl⟩
    · rcases ih with h | ⟨e, he, h1, h2, h3⟩
      · exact Or.inl h
      · exact Or.inr ⟨e, List.mem_cons_of_mem _ he, h1, h2, h3⟩

/-- A code point is kept by `unicode.ToLower`, or mapped to a code point from `a` on that
`unicode.ToLower` keeps. -/
theorem unicodeToLower_cases (n : Nat) :
    unicodeToLower n = n ∨
      (97 ≤ unicodeToLower n ∧ unicodeToLower (unicodeToLower n) = unicodeToLower n) := by
  unfold unicodeToLower
  by_cases h : n ≤ 127
  · simp only [if_pos h]
    by_cases hu : 65 ≤ n ∧ n ≤ 90
    · right
      simp only [if_pos hu]
      have h1 : n + 32 ≤ 127 := by omega
      have h2 : ¬ (65 ≤ n + 32 ∧ n + 32 ≤ 90) := by omega
      simp only [if_pos h1, if_neg h2]
      exact ⟨by omega, trivial⟩
    · left
      simp only [if_neg hu]
  · simp only [if_neg h]
    rcases toLowerIn_cases CaseRanges n with e | ⟨e, he, h1, h2, h3⟩
    · exact Or.inl e
    · right
      rw [h3]
      have hc : ∀ f ∈ CaseRanges, FixedBy f (e.apply n) ∧ 97 ≤ e.apply n :=
        fun f hf => consistent_sound _ _ CaseRanges_consistent e he f hf n h1 h2
      have h97 : 97 ≤ e.apply n := (hc e he).2
      refine ⟨h97, ?_⟩
      by_cases hs : e.apply n ≤ 127
      · have h2 : ¬ (65 ≤ e.apply n ∧ e.apply n ≤ 90) := by omega
        simp only [if_pos hs, if_neg h2]
      · simp only [if_neg hs]
        exact toLowerIn_fixed _ _ (fun f hf => (hc f hf).1)

/-- The mapping `unicode.ToLower` is idempotent. -/
theorem unicodeToLower_idem (n : Nat) :
    unicodeToLower (unicodeToLower n) = unicodeToLower n := by
  rcases unicodeToLower_cases n with h | ⟨_, h⟩
  · rw [h, h]
  · exact h

theorem toNat_ofNat_cases (m : Nat) :
    (Char.ofNat m).toNat = m ∨ (Char.ofNat m).toNat = 0 := by
  unfold Char.ofNat
  split_ifs with h
  · left
    rfl
  · right
    rfl

theorem ofNat_unicodeToLower_idem (n : Nat) :
    Char.ofNat (unicodeToLower (Char.ofNat (unicodeToLower n)).toNat) =
      Char.ofNat (unicodeToLower n) := by
  rcases toNat_ofNat_cases (unicodeToLower n) with h | h
  · rw [h, unicodeToLower_idem]
  · have e : Char.ofNat (unicodeToLower n) = Char.ofNat 0 := by
      rw [← Char.ofNat_toNat (Char.ofNat (unicodeToLower n)), h]
    rw [h, e]
    rfl

set_option maxRecDepth 100000 in
theorem lowerRune_replacement :
    lowerRune (Rune.char (Char.ofNat 0xFFFD)) = Rune.char (Char.ofNat 0xFFFD) := by
  decide

theorem lowerRune_idem (x : Rune) : lowerRune (lowerRune x) = lowerRune x := by
  cases x with
  | char c =>
    simp only [lowerRune]
    rw [ofNat_unicodeToLower_idem]
  | byte b => exact lowerRune_replacement

theorem ToLower_idem (s : GoString) : ToLower (ToLower s) = ToLower s := by
  simp only [ToLower, List.map_map]
  apply List.map_congr_left
  intro c _
  exact lowerRune_idem c

theorem ToLower_eq_self_iff (s : GoString) :
    ToLower s = s ↔ ∀ c ∈ s, lowerRune c = c := by
  induction s with
  | nil => simp [ToLower]
  | cons x xs ih =>
    simp only [ToLower, List.map_cons, List.cons.injEq, List.mem_cons, forall_eq_or_imp]
    simp only [ToLower] at ih
    rw [ih]

theorem Join_cons_of_ne_nil (p : GoString) (ps : List GoString) (sep : Rune)
    (h : ps ≠ []) : Join (p :: ps) sep = p ++ sep :: Join ps sep := by
  cases ps with
  | nil => exact absurd rfl h
  | cons q qs => rfl

/-- Joining the pieces of a split gives the string back. -/
theorem Join_Split (s : GoString) (sep : Rune) : Join (Split s sep) sep = s := by
  induction s with
  | nil => rfl
  | cons x xs ih =>
    simp only [Split]
    split_ifs with hx
    · rw [Join_cons_of_ne_nil _ _ _ (Split_ne_nil xs sep), ih, hx]
      rfl
    · cases hs : Split xs sep with
      | nil => exact absurd hs (Split_ne_nil xs sep)
      | cons p ps =>
        rw [hs] at ih
        cases ps with
        | nil =>
          simp only [Join] at ih ⊢
          rw [ih]
        | cons q qs =>
          simp only [Join] at ih ⊢
          rw [← ih]
          rfl

/-- Every rune of `domainOf h` is a rune of `h`. -/
theorem mem_of_mem_domainOf (h : GoString) (c : Rune) (hc : c ∈ domainOf h) : c ∈ h := by
  unfold domainOf at hc
  split_ifs at hc with h3
  · exact hc
  · cases hs : Split h (Rune.char '.') with
    | nil => exact absurd hs (Split_ne_nil h (Rune.char '.'))
    | cons p ps =>
      rw [hs] at hc h3
      have hps : ps ≠ [] := by
        intro e
        rw [e] at h3
        simp at h3
      have hj := Join_Split h (Rune.char '.')
      rw [hs, Join_cons_of_ne_nil _ _ _ hps] at hj
      rw [← hj]
      simp only [List.tail_cons] at hc
      simp [hc]

theorem getHostname_eq (host : GoString) :
    getHostname host =
      if 0 < IndexByte host (Rune.char ':') then
        (SplitHostPort host).bind fun r => some (ToLower r.1)
      else some (ToLower host) := by
  unfold getHostname
  split_ifs with h
  · simp only [if_pos h, Option.pure_def, Option.bind_eq_bind]
    cases SplitHostPort host <;> rfl
  · simp only [if_neg h, Option.pure_def, Option.bind_eq_bind, Option.some_bind]

theorem getHostname_lower {host h : GoString} (hh : getHostname host = some h) :
    ToLower h = h := by
  rw [getHostname_eq] at hh
  split_ifs at hh
  · obtain ⟨r, hr⟩ := SplitHostPort_total host
    rw [hr] at hh
    simp only [Option.some_bind, Option.some.injEq] at hh
    rw [← hh, ToLower_idem]
  · simp only [Option.some.injEq] at hh
    rw [← hh, ToLower_idem]

theorem getDomain_lower {host d : GoString} (hd : getDomain host = some d) :
    ToLower d = d := by
  obtain ⟨h, hh⟩ := getHostname_total host
  rw [getDomain_eq host h hh] at hd
  simp only [Option.some.injEq] at hd
  have hl := (ToLower_eq_self_iff h).1 (getHostname_lower hh)
  rw [← hd, ToLower_eq_self_iff]
  intro c hc
  exact hl c (mem_of_mem_domainOf h c hc)

/-! ## The policies on a non-empty chain -/

theorem SameHostRedirectPolicy_cons (c o : GoString) (rest : List GoString)
    (a b : GoString) (ha : getHostname c = some a) (hb : getHostname o = some b) :
    SameHostRedirectPolicy c (o :: rest) =
      some (if a ≠ b then Error.New "different host name is not allowed" else Error.nil) := by
  simp only [SameHostRedirectPolicy, chainAt, ha, hb, Option.pure_def, Option.bind_eq_bind,
    Option.some_bind, le_refl, if_true, Int.toNat_zero, List.get?_cons_zero]
  split_ifs <;> rfl

theorem SameDomainRedirectPolicy_cons (c o : GoString) (rest : List GoString)
    (a b : GoString) (ha : getDomain c = some a) (hb : getDomain o = some b) :
    SameDomainRedirectPolicy c (o :: rest) =
      some (if a ≠ b then Error.New "different domain name is not allowed"
        else Error.nil) := by
  simp only [SameDomainRedirectPolicy, chainAt, ha, hb, Option.pure_def,
    Option.bind_eq_bind, Option.some_bind, le_refl, if_true, Int.toNat_zero,
    List.get?_cons_zero]
  split_ifs <;> rfl

theorem GoMap.has_set (m : GoMap) (k x : GoString) (v : Bool) :
    (m.set k v).has x = true ↔ x = k ∨ m.has x = true := by
  unfold GoMap.set GoMap.has
  by_cases h : x = k
  · simp [h]
  · simp [h]

/-- The set built by `AllowedHostRedirectPolicy` holds the keys already present and the
hostname of every entry. -/
theorem hostSet_spec (hosts : List GoString) (m : GoMap) :
    ∃ m2, hostSet hosts m = some m2 ∧
      ∀ k, m2.has k = true ↔ (m.has k = true ∨ ∃ h ∈ hosts, getHostname h = some k) := by
  induction hosts generalizing m with
  | nil => exact ⟨m, rfl, fun k => by simp⟩
  | cons h hs ih =>
    obtain ⟨x, hx⟩ := getHostname_total h
    obtain ⟨m2, hm2, hk⟩ := ih (m.set (ToLower x) true)
    refine ⟨m2, ?_, ?_⟩
    · simp only [hostSet, hx, Option.bind_eq_bind, Option.some_bind]
      exact hm2
    · intro k
      rw [hk k, GoMap.has_set, getHostname_lower hx]
      constructor
      · rintro ((e | e) | ⟨h2, hmem, e⟩)
        · exact Or.inr ⟨h, List.mem_cons_self _ _, by rw [hx, e]⟩
        · exact Or.inl e
        · exact Or.inr ⟨h2, List.mem_cons_of_mem _ hmem, e⟩
      · rintro (e | ⟨h2, hmem, e⟩)
        · exact Or.inl (Or.inr e)
        · rcases List.mem_cons.1 hmem with e2 | e2
          · subst e2
            rw [hx] at e
            exact Or.inl (Or.inl (Option.some.inj e).symm)
          · exact Or.inr ⟨h2, e2, e⟩

/-- The set built by `AllowedDomainRedirectPolicy` holds the keys already present and the
domain of every entry. -/
theorem domainSet_spec (hosts : List GoString) (m : GoMap) :
    ∃ m2, domainSet hosts m = some m2 ∧
      ∀ k, m2.has k = true ↔ (m.has k = true ∨ ∃ h ∈ hosts, getDomain h = some k) := by
  induction hosts generalizing m with
  | nil => exact ⟨m, rfl, fun k => by simp⟩
  | cons h hs ih =>
    obtain ⟨x, hx⟩ := getDomain_total h
    obtain ⟨m2, hm2, hk⟩ := ih (m.set (ToLower x) true)
    refine ⟨m2, ?_, ?_⟩
    · simp only [domainSet, hx, Option.bind_eq_bind, Option.some_bind]
      exact hm2
    · intro k
      rw [hk k, GoMap.has_set, getDomain_lower hx]
      constructor
      · rintro ((e | e) | ⟨h2, hmem, e⟩)
        · exact Or.inr ⟨h, List.mem_cons_self _ _, by rw [hx, e]⟩
        · exact Or.inl e
        · exact Or.inr ⟨h2, List.mem_cons_of_mem _ hmem, e⟩
      · rintro (e | ⟨h2, hmem, e⟩)
        · exact Or.inl (Or.inr e)
        · rcases List.mem_cons.1 hmem with e2 | e2
          · subst e2
            rw [hx] at e
            exact Or.inl (Or.inl (Option.some.inj e).symm)
          · exact Or.inr ⟨h2, e2, e⟩

theorem GoMap.has_empty (k : GoString) : GoMap.empty.has k = false := rfl

theorem AllowedHostRedirectPolicy_run (hosts : List GoString) :
    ∃ p, AllowedHostRedirectPolicy hosts = some p ∧ ∀ (c : GoString) (via : List GoString),
      ((∃ h ∈ hosts, getHostname h = getHostname c) → p c via = some Error.nil) ∧
      ((¬ ∃ h ∈ hosts, getHostname h = getHostname c) →
        p c via = some (Error.New "redirect host is not allowed")) := by
  obtain ⟨m, hm, hk⟩ := hostSet_spec hosts GoMap.empty
  refine ⟨fun req _via => (getHostname req).bind fun k =>
    if (!m.has k) = true then some (Error.New "redirect host is not allowed")
    else some Error.nil, ?_, ?_⟩
  · simp only [AllowedHostRedirectPolicy, hm, Option.pure_def, Option.bind_eq_bind,
      Option.some_bind]
  intro c via
  obtain ⟨k, hc⟩ := getHostname_total c
  have key : m.has k = true ↔ ∃ h ∈ hosts, getHostname h = some k := by
    rw [hk k, GoMap.has_empty]
    simp
  simp only [hc, Option.some_bind]
  constructor
  · intro h
    rw [key.2 h]
    rfl
  · intro h
    have hf : m.has k = false := by
      cases e : m.has k
      · rfl
      · exact absurd (key.1 e) h
    rw [hf]
    rfl

theorem AllowedDomainRedirectPolicy_run (hosts : List GoString) :
    ∃ p, AllowedDomainRedirectPolicy hosts = some p ∧
      ∀ (c : GoString) (via : List GoString),
      ((∃ h ∈ hosts, getDomain h = getDomain c) → p c via = some Error.nil) ∧
      ((¬ ∃ h ∈ hosts, getDomain h = getDomain c) →
        p c via = some (Error.New "redirect domain is not allowed")) := by
  obtain ⟨m, hm, hk⟩ := domainSet_spec hosts GoMap.empty
  refine ⟨fun req _via => (getDomain req).bind fun k =>
    if (!m.has k) = true then some (Error.New "redirect domain is not allowed")
    else some Error.nil, ?_, ?_⟩
  · simp only [AllowedDomainRedirectPolicy, hm, Option.pure_def, Option.bind_eq_bind,
      Option.some_bind]
  intro c via
  obtain ⟨k, hc⟩ := getDomain_total c
  have key : m.has k = true ↔ ∃ h ∈ hosts, getDomain h = some k := by
    rw [hk k, GoMap.has_empty]
    simp
  simp only [hc, Option.some_bind]
  constructor
  · intro h
    rw [key.2 h]
    rfl
  · intro h
    have hf : m.has k = false := by
      cases e : m.has k
      · rfl
      · exact absurd (key.1 e) h
    rw [hf]
    rfl

/-! ## `net.SplitHostPort` on well-formed `host:port` strings -/

/-- On `pre:post` with a single colon and no bracket, the split succeeds with host `pre`. -/
theorem SplitHostPort_plain (pre post : GoString)
    (h1 : (Rune.char ':') ∉ pre) (h2 : (Rune.char ':') ∉ post) (h3 : (Rune.char '[') ∉ pre) (h4 : (Rune.char '[') ∉ post)
    (h5 : (Rune.char ']') ∉ pre) (h6 : (Rune.char ']') ∉ post) :
    SplitHostPort (pre ++ (Rune.char ':') :: post) = some (pre, post, Error.nil) := by
  have hi := LastIndexByte_append_cons pre post (Rune.char ':') h2
  have hlen : ((pre ++ (Rune.char ':') :: post).length : Int) = pre.length + post.length + 1 := by
    simp only [List.length_append, List.length_cons, Nat.cast_add, Nat.cast_one]
    omega
  have hob : (Rune.char '[') ∉ pre ++ (Rune.char ':') :: post := by
    simp only [List.mem_append, List.mem_cons, not_or]
    exact ⟨h3, by decide, h4⟩
  have hcb : (Rune.char ']') ∉ pre ++ (Rune.char ':') :: post := by
    simp only [List.mem_append, List.mem_cons, not_or]
    exact ⟨h5, by decide, h6⟩
  obtain ⟨c0, hc0⟩ := byteAt_zero_of_ne_nil (s := pre ++ (Rune.char ':') :: post) (by simp)
  have hc0ne : c0 ≠ (Rune.char '[') := by
    intro e
    apply hob
    cases pre with
    | nil =>
      simp only [List.nil_append, byteAt, le_refl, if_true, Int.toNat_zero,
        List.get?_cons_zero, Option.some.injEq] at hc0
      rw [e] at hc0
      exact absurd hc0 (by decide)
    | cons x xs =>
      simp only [List.cons_append, byteAt, le_refl, if_true, Int.toNat_zero,
        List.get?_cons_zero, Option.some.injEq] at hc0
      rw [← e, ← hc0]
      simp
  have htake : List.take pre.length (pre ++ (Rune.char ':') :: post) = pre := by simp
  have hdrop : List.drop (pre.length + 1) (pre ++ (Rune.char ':') :: post) = post := by
    rw [← List.drop_drop]
    simp
  unfold SplitHostPort
  simp only [hi, Option.pure_def, Option.bind_eq_bind, hc0, Option.some_bind,
    if_neg hc0ne]
  rw [if_neg (by omega), sliceTo_eq _ _ ⟨by omega, by omega⟩]
  simp only [Option.some_bind, Int.toNat_ofNat, htake, IndexByte_of_not_mem h1]
  rw [if_neg (by omega)]
  unfold splitHostPortTail
  rw [sliceFrom_eq _ 0 ⟨by omega, by omega⟩,
    sliceFrom_eq _ ((pre.length : Int) + 1) ⟨by omega, by omega⟩]
  simp only [Option.pure_def, Option.bind_eq_bind, Option.some_bind, Int.toNat_zero,
    List.drop_zero, IndexByte_of_not_mem hob, IndexByte_of_not_mem hcb]
  rw [if_neg (by omega), if_neg (by omega)]
  have e : ((pre.length : Int) + 1).toNat = pre.length + 1 := by omega
  rw [e, hdrop]

/-- On `[h]:p` the split succeeds with host `h`, the brackets removed. -/
theorem SplitHostPort_bracket (h p : GoString)
    (h1 : (Rune.char '[') ∉ h) (h2 : (Rune.char ']') ∉ h) (h3 : (Rune.char ':') ∉ p) (h4 : (Rune.char '[') ∉ p) (h5 : (Rune.char ']') ∉ p) :
    SplitHostPort ((Rune.char '[') :: h ++ (Rune.char ']') :: (Rune.char ':') :: p) = some (h, p, Error.nil) := by
  have hi : LastIndexByte ((Rune.char '[') :: h ++ (Rune.char ']') :: (Rune.char ':') :: p) (Rune.char ':') = (h.length : Int) + 2 := by
    have e : (Rune.char '[') :: h ++ (Rune.char ']') :: (Rune.char ':') :: p = ((Rune.char '[') :: h ++ [(Rune.char ']')]) ++ (Rune.char ':') :: p := by simp
    rw [e, LastIndexByte_append_cons _ _ _ h3]
    simp only [List.cons_append, List.length_cons, List.length_append, List.length_nil,
      Nat.cast_add, Nat.cast_one]
    omega
  have he : IndexByte ((Rune.char '[') :: h ++ (Rune.char ']') :: (Rune.char ':') :: p) (Rune.char ']') = (h.length : Int) + 1 := by
    have e : (Rune.char '[') :: h ++ (Rune.char ']') :: (Rune.char ':') :: p = ((Rune.char '[') :: h) ++ (Rune.char ']') :: ((Rune.char ':') :: p) := by simp
    have hn : (Rune.char ']') ∉ (Rune.char '[') :: h := by
      simp only [List.mem_cons, not_or]
      exact ⟨by decide, h2⟩
    rw [e, IndexByte_append_cons _ _ _ hn]
    simp
  have hlen : (((Rune.char '[') :: h ++ (Rune.char ']') :: (Rune.char ':') :: p).length : Int) = h.length + p.length + 3 := by
    simp only [List.cons_append, List.length_cons, List.length_append, Nat.cast_add,
      Nat.cast_one]
    omega
  have hc0 : byteAt ((Rune.char '[') :: h ++ (Rune.char ']') :: (Rune.char ':') :: p) 0 = some (Rune.char '[') := by
    simp [byteAt]
  have hhost : List.drop 1 (List.take (h.length + 1) ((Rune.char '[') :: h ++ (Rune.char ']') :: (Rune.char ':') :: p)) = h := by
    simp
  have hj : List.drop 1 ((Rune.char '[') :: h ++ (Rune.char ']') :: (Rune.char ':') :: p) = h ++ (Rune.char ']') :: (Rune.char ':') :: p := by simp
  have hk : List.drop (h.length + 2) ((Rune.char '[') :: h ++ (Rune.char ']') :: (Rune.char ':') :: p) = (Rune.char ':') :: p := by
    have e : (Rune.char '[') :: h ++ (Rune.char ']') :: (Rune.char ':') :: p = ((Rune.char '[') :: h ++ [(Rune.char ']')]) ++ (Rune.char ':') :: p := by simp
    have l : ((Rune.char '[') :: h ++ [(Rune.char ']')]).length = h.length + 2 := by simp
    rw [e, ← l, List.drop_left]
  have hp : List.drop (h.length + 3) ((Rune.char '[') :: h ++ (Rune.char ']') :: (Rune.char ':') :: p) = p := by
    have e : (Rune.char '[') :: h ++ (Rune.char ']') :: (Rune.char ':') :: p = ((Rune.char '[') :: h ++ [(Rune.char ']'), (Rune.char ':')]) ++ p := by simp
    have l : ((Rune.char '[') :: h ++ [(Rune.char ']'), (Rune.char ':')]).length = h.length + 3 := by simp
    rw [e, ← l, List.drop_left]
  have hnb : (Rune.char '[') ∉ h ++ (Rune.char ']') :: (Rune.char ':') :: p := by
    simp only [List.mem_append, List.mem_cons, not_or]
    exact ⟨h1, by decide, by decide, h4⟩
  have hnc : (Rune.char ']') ∉ (Rune.char ':') :: p := by
    simp only [List.mem_cons, not_or]
    exact ⟨by decide, h5⟩
  unfold SplitHostPort
  simp only [hi, he, Option.pure_def, Option.bind_eq_bind, hc0, Option.some_bind, if_true]
  rw [if_neg (by omega), if_neg (by omega), if_neg (by omega), if_pos (by omega),
    slice_eq _ 1 _ ⟨by omega, by omega, by omega⟩]
  have e1 : ((h.length : Int) + 1).toNat = h.length + 1 := by omega
  have e2 : ((1 : Int)).toNat = 1 := rfl
  rw [e1, e2, hhost, Option.some_bind]
  unfold splitHostPortTail
  rw [sliceFrom_eq _ 1 ⟨by omega, by omega⟩,
    sliceFrom_eq _ ((h.length : Int) + 1 + 1) ⟨by omega, by omega⟩,
    sliceFrom_eq _ ((h.length : Int) + 2 + 1) ⟨by omega, by omega⟩]
  have e3 : ((h.length : Int) + 1 + 1).toNat = h.length + 2 := by omega
  have e4 : ((h.length : Int) + 2 + 1).toNat = h.length + 3 := by omega
  rw [e2, e3, e4, hj, hk, hp]
  simp only [Option.pure_def, Option.bind_eq_bind, Option.some_bind,
    IndexByte_of_not_mem hnb, IndexByte_of_not_mem hnc]
  rw [if_neg (by omega), if_neg (by omega)]

theorem IndexByte_pos_of_head {s : GoString} {c : Rune} (hmem : c ∈ s)
    (hhead : s.head? ≠ some c) : 0 < IndexByte s c := by
  have h1 : ¬ IndexByte s c < 0 := fun h => (IndexByte_neg_iff s c).1 h hmem
  have h2 : IndexByte s c ≠ 0 := by
    cases s with
    | nil => simp at hmem
    | cons x xs =>
      have hx : x ≠ c := by
        intro e
        apply hhead
        simp [e]
      exact IndexByte_ne_zero (show byteAt (x :: xs) 0 = some x by simp [byteAt]) hx
  omega

theorem beforeLastColon_append_cons (pre post : GoString) (h : (Rune.char ':') ∉ post) :
    beforeLastColon (pre ++ (Rune.char ':') :: post) = pre := by
  have hi := LastIndexByte_append_cons pre post (Rune.char ':') h
  unfold beforeLastColon
  simp only [hi]
  rw [if_pos (by omega)]
  simp

theorem Error.nil_ne_New (msg : String) : (some Error.nil : Option Error) ≠ some (Error.New msg) := by
  intro h
  cases h

/-! ## The claims -/

/-- C1 (the code at the failing input): the candidate host `[2001:db8::1]` and the original
host `[::1]` are different hosts, with or without the text after the last colon, and yet
`SameHostRedirectPolicy` returns no error: `getHostname` maps both to the empty string,
because the error of `net.SplitHostPort` ("missing port in address") is dropped.  The
redirect from `imroc.cc` to `www.imroc.cc` of the doc comment is rejected. -/
theorem SameHostRedirectPolicy_allows_other_host :
    SameHostRedirectPolicy (str "[2001:db8::1]") [str "[::1]"] = some Error.nil ∧
    getHostname (str "[2001:db8::1]") = some [] ∧
    getHostname (str "[::1]") = some [] ∧
    SplitHostPort (str "[::1]") = some ([], [], Error.New "missing port in address") ∧
    ToLower (withoutPort (str "[2001:db8::1]")) ≠ ToLower (withoutPort (str "[::1]")) ∧
    ToLower (beforeLastColon (str "[2001:db8::1]")) ≠
      ToLower (beforeLastColon (str "[::1]")) ∧
    SameHostRedirectPolicy (str "www.imroc.cc") [str "imroc.cc"] =
      some (Error.New "different host name is not allowed") := by
  decide

/-- C2: for every allow-list `hosts`, `AllowedHostRedirectPolicy(hosts...)` is constructed
without panic, and on every candidate `c` and chain it returns no error exactly when some
entry `h` has `getHostname(h) = getHostname(c)`, and the error "redirect host is not
allowed" exactly when no entry has; the chain does not influence the result.  Built with
`Example.COM`, the candidates `example.com` and `example.com:8443` are allowed and
`other.com` is rejected. -/
theorem AllowedHostRedirectPolicy_iff :
    (∀ hosts : List GoString, ∃ p, AllowedHostRedirectPolicy hosts = some p ∧
      ∀ (c : GoString) (via : List GoString),
        (p c via = some Error.nil ↔ ∃ h ∈ hosts, getHostname h = getHostname c) ∧
        (p c via = some (Error.New "redirect host is not allowed") ↔
          ¬ ∃ h ∈ hosts, getHostname h = getHostname c) ∧
        (∀ via2 : List GoString, p c via2 = p c via)) ∧
    runPolicy (AllowedHostRedirectPolicy [str "Example.COM"]) (str "example.com")
      [str "start.example"] = some Error.nil ∧
    runPolicy (AllowedHostRedirectPolicy [str "Example.COM"]) (str "example.com:8443")
      [str "start.example"] = some Error.nil ∧
    runPolicy (AllowedHostRedirectPolicy [str "Example.COM"]) (str "other.com")
      [str "start.example"] = some (Error.New "redirect host is not allowed") := by
  refine ⟨?_, by decide, by decide, by decide⟩
  intro hosts
  obtain ⟨p, hp, hrun⟩ := AllowedHostRedirectPolicy_run hosts
  refine ⟨p, hp, fun c via => ?_⟩
  have key : ∀ v : List GoString,
      p c v = if (∃ h ∈ hosts, getHostname h = getHostname c) then some Error.nil
        else some (Error.New "redirect host is not allowed") := by
    intro v
    split_ifs with h
    · exact (hrun c v).1 h
    · exact (hrun c v).2 h
  refine ⟨?_, ?_, fun via2 => by rw [key via2, key via]⟩
  · rw [key via]
    split_ifs with h
    · simp [h]
    · simp [h, (Error.nil_ne_New _).symm]
  · rw [key via]
    split_ifs with h
    · simp [h, Error.nil_ne_New]
    · simp [h]

/-- C3: on every candidate `c` and every chain `o :: rest`, `SameDomainRedirectPolicy()`
returns no error exactly when `getDomain(c) = getDomain(o)` and the error "different domain
name is not allowed" exactly when they differ; the elements after `chain[0]` do not
influence the result.  `www.example.com` after `api.example.com` is allowed (both reduce to
`example.com`), `example.org` after `example.com` is rejected. -/
theorem SameDomainRedirectPolicy_iff :
    (∀ (c o : GoString) (rest : List GoString),
      (SameDomainRedirectPolicy c (o :: rest) = some Error.nil ↔
        getDomain c = getDomain o) ∧
      (SameDomainRedirectPolicy c (o :: rest) =
          some (Error.New "different domain name is not allowed") ↔
        getDomain c ≠ getDomain o) ∧
      SameDomainRedirectPolicy c (o :: rest) = SameDomainRedirectPolicy c [o]) ∧
    SameDomainRedirectPolicy (str "www.example.com") [str "api.example.com"] =
      some Error.nil ∧
    getDomain (str "www.example.com") = some (str "example.com") ∧
    getDomain (str "api.example.com") = some (str "example.com") ∧
    SameDomainRedirectPolicy (str "example.org") [str "example.com"] =
      some (Error.New "different domain name is not allowed") := by
  refine ⟨?_, by decide, by decide, by decide, by decide⟩
  intro c o rest
  obtain ⟨a, ha⟩ := getDomain_total c
  obtain ⟨b, hb⟩ := getDomain_total o
  rw [SameDomainRedirectPolicy_cons c o rest a b ha hb,
    SameDomainRedirectPolicy_cons c o [] a b ha hb, ha, hb]
  by_cases h : a = b
  · simp [h, Error.nil_ne_New]
  · simp [h, (Error.nil_ne_New _).symm]

/-- C4: for every allow-list `hosts`, `AllowedDomainRedirectPolicy(hosts...)` is
constructed without panic, and on every candidate `c` and chain it returns no error exactly
when some entry `h` has `getDomain(h) = getDomain(c)`, and the error "redirect domain is not
allowed" exactly when no entry has; with the empty list every candidate is rejected. -/
theorem AllowedDomainRedirectPolicy_iff :
    (∀ hosts : List GoString, ∃ p, AllowedDomainRedirectPolicy hosts = some p ∧
      ∀ (c : GoString) (via : List GoString),
        (p c via = some Error.nil ↔ ∃ h ∈ hosts, getDomain h = getDomain c) ∧
        (p c via = some (Error.New "redirect domain is not allowed") ↔
          ¬ ∃ h ∈ hosts, getDomain h = getDomain c)) ∧
    (∀ (c : GoString) (via : List GoString),
      runPolicy (AllowedDomainRedirectPolicy []) c via =
        some (Error.New "redirect domain is not allowed")) := by
  have main : ∀ hosts : List GoString, ∃ p, AllowedDomainRedirectPolicy hosts = some p ∧
      ∀ (c : GoString) (via : List GoString),
        (p c via = some Error.nil ↔ ∃ h ∈ hosts, getDomain h = getDomain c) ∧
        (p c via = some (Error.New "redirect domain is not allowed") ↔
          ¬ ∃ h ∈ hosts, getDomain h = getDomain c) := by
    intro hosts
    obtain ⟨p, hp, hrun⟩ := AllowedDomainRedirectPolicy_run hosts
    refine ⟨p, hp, fun c via => ?_⟩
    by_cases h : ∃ h ∈ hosts, getDomain h = getDomain c
    · rw [(hrun c via).1 h]
      simp [h, Error.nil_ne_New]
    · rw [(hrun c via).2 h]
      simp [h, (Error.nil_ne_New _).symm]
  refine ⟨main, fun c via => ?_⟩
  obtain ⟨p, hp, hspec⟩ := main []
  rw [hp]
  exact ((hspec c via).2.2 (by simp))

/-- C5: for every integer `limit`, candidate and chain (the empty chain included),
`MaxRedirectPolicy(limit)` returns the error "stopped after limit redirects" exactly when
`len(chain) >= limit` and no error exactly when `len(chain) < limit`; for `limit <= 0`
every redirect is rejected, the same decision as `NoRedirectPolicy()` takes. -/
theorem MaxRedirectPolicy_iff :
    (∀ (limit : Int) (c : GoString) (chain : List GoString),
      (isRejected (MaxRedirectPolicy limit c chain) = true ↔
        limit ≤ (chain.length : Int)) ∧
      (MaxRedirectPolicy limit c chain = some (stoppedAfter limit) ↔
        limit ≤ (chain.length : Int)) ∧
      (MaxRedirectPolicy limit c chain = some Error.nil ↔
        ¬ limit ≤ (chain.length : Int))) ∧
    (∀ (limit : Int) (c : GoString) (chain : List GoString), limit ≤ 0 →
      isRejected (MaxRedirectPolicy limit c chain) = true ∧
      isRejected (MaxRedirectPolicy limit c chain) = isRejected (NoRedirectPolicy c chain) ∧
      isAllowed (MaxRedirectPolicy limit c chain) =
        isAllowed (NoRedirectPolicy c chain)) := by
  constructor
  · intro limit c chain
    by_cases h : limit ≤ (chain.length : Int)
    · simp [MaxRedirectPolicy, h, isRejected, stoppedAfter]
    · simp [MaxRedirectPolicy, h, isRejected, stoppedAfter]
  · intro limit c chain h0
    have h : limit ≤ (chain.length : Int) := by
      have : (0 : Int) ≤ (chain.length : Int) := Int.ofNat_nonneg _
      omega
    simp [MaxRedirectPolicy, NoRedirectPolicy, h, isRejected, isAllowed, stoppedAfter]

/-- Witness for C5: with `limit = 0` the empty chain is already rejected. -/
theorem MaxRedirectPolicy_iff_witness :
    (0 : Int) ≤ 0 ∧ isRejected (MaxRedirectPolicy 0 (str "example.com") []) = true :=
  ⟨le_refl 0, (MaxRedirectPolicy_iff.2 0 (str "example.com") [] (le_refl 0)).1⟩

/-- C6 as stated fails: `[::1]:80` contains a colon, the text before its last colon is
`[::1]`, and `getHostname` returns `::1`, the brackets removed. -/
theorem getHostname_last_colon_counterexample :
    ¬ ∀ s : GoString,
      ((Rune.char ':') ∉ s → getHostname s = some (ToLower s)) ∧
      ((Rune.char ':') ∈ s → getHostname s = some (ToLower (beforeLastColon s))) := by
  intro h
  have h2 := (h (str "[::1]:80")).2 (by decide)
  exact absurd h2 (by decide)

/-- C6, amended: if `s` contains no `:` then `getHostname(s)` is `s` lower-cased; if `s`
contains exactly one `:`, not as its first character, and neither `[` nor `]`, then
`getHostname(s)` is the lower-cased text of `s` before that colon; if `s` has the form
`[h]:p` with no bracket inside `h` and `p` and no colon in `p`, then `getHostname(s)` is
`h` lower-cased, the brackets removed. -/
theorem getHostname_spec (s : GoString) :
    ((Rune.char ':') ∉ s → getHostname s = some (ToLower s)) ∧
    ((Rune.char ':') ∈ s → s.head? ≠ some (Rune.char ':') → s.count (Rune.char ':') = 1 → (Rune.char '[') ∉ s → (Rune.char ']') ∉ s →
      getHostname s = some (ToLower (beforeLastColon s))) ∧
    (∀ h p : GoString, s = (Rune.char '[') :: h ++ (Rune.char ']') :: (Rune.char ':') :: p →
      (Rune.char '[') ∉ h → (Rune.char ']') ∉ h → (Rune.char ':') ∉ p → (Rune.char '[') ∉ p → (Rune.char ']') ∉ p →
      getHostname s = some (ToLower h)) := by
  refine ⟨?_, ?_, ?_⟩
  · intro hn
    rw [getHostname_eq, if_neg]
    rw [IndexByte_of_not_mem hn]
    decide
  · intro hmem hhead hcount hob hcb
    have hpos := IndexByte_pos_of_head hmem hhead
    obtain ⟨pre, post, hs, hpre⟩ := List.eq_append_cons_of_mem hmem
    subst hs
    have hpost : (Rune.char ':') ∉ post := by
      rw [List.count_append, List.count_cons_self, List.count_eq_zero.2 hpre] at hcount
      apply List.count_eq_zero.1
      omega
    simp only [List.mem_append, List.mem_cons, not_or] at hob hcb
    rw [getHostname_eq, if_pos hpos,
      SplitHostPort_plain pre post hpre hpost hob.1 hob.2.2 hcb.1 hcb.2.2,
      beforeLastColon_append_cons pre post hpost]
    rfl
  · intro h p hs h1 h2 h3 h4 h5
    subst hs
    have hpos : 0 < IndexByte ((Rune.char '[') :: h ++ (Rune.char ']') :: (Rune.char ':') :: p) (Rune.char ':') :=
      IndexByte_pos_of_head (by simp) (by simp)
    rw [getHostname_eq, if_pos hpos, SplitHostPort_bracket h p h1 h2 h3 h4 h5]
    rfl

/-- Witness for C6: one host for each of the three cases. -/
theorem getHostname_spec_witness :
    getHostname (str "LocalHost") = some (str "localhost") ∧
    getHostname (str "Example.COM:8443") = some (str "example.com") ∧
    getHostname (str "[FE80::1]:80") = some (str "fe80::1") :=
  ⟨(getHostname_spec (str "LocalHost")).1 (by decide),
   (getHostname_spec (str "Example.COM:8443")).2.1 (by decide) (by decide) (by decide)
     (by decide) (by decide),
   (getHostname_spec (str "[FE80::1]:80")).2.2 (str "FE80::1") (str "80")
     (by decide) (by decide) (by decide) (by decide) (by decide) (by decide)⟩

/-- C7: for every host string `s`, with `h = getHostname(s)` and the labels of `h` taken by
splitting on `.`: `getDomain(s)` is `h` when there are fewer than 3 labels, and otherwise
the labels after the first one joined with `.`.  Four evaluations are included. -/
theorem getDomain_spec :
    (∀ s : GoString, ∃ h, getHostname s = some h ∧
      getDomain s =
        some (if (Split h (Rune.char '.')).length < 3 then h else Join ((Split h (Rune.char '.')).drop 1) (Rune.char '.'))) ∧
    getDomain (str "example.com") = some (str "example.com") ∧
    getDomain (str "localhost") = some (str "localhost") ∧
    getDomain (str "www.mail.example.com") = some (str "mail.example.com") ∧
    getDomain (str "x.y.z.com") = some (str "y.z.com") := by
  refine ⟨?_, by decide, by decide, by decide, by decide⟩
  intro s
  obtain ⟨h, hh⟩ := getHostname_total s
  refine ⟨h, hh, ?_⟩
  rw [getDomain_eq s h hh, domainOf, List.drop_one]

/-- C8: on every candidate `c` and every chain `o :: rest`, `SameHostRedirectPolicy()`
returns the error "different host name is not allowed" exactly when `getHostname(c)`
differs from `getHostname(o)`, and no error exactly when they are equal; the elements after
`chain[0]` do not influence the result.  `a.example.com` after `a.example.com` is allowed,
`b.example.com` after `a.example.com` is rejected. -/
theorem SameHostRedirectPolicy_iff :
    (∀ (c o : GoString) (rest : List GoString),
      (SameHostRedirectPolicy c (o :: rest) =
          some (Error.New "different host name is not allowed") ↔
        getHostname c ≠ getHostname o) ∧
      (SameHostRedirectPolicy c (o :: rest) = some Error.nil ↔
        getHostname c = getHostname o) ∧
      SameHostRedirectPolicy c (o :: rest) = SameHostRedirectPolicy c [o]) ∧
    SameHostRedirectPolicy (str "a.example.com") [str "a.example.com"] =
      some Error.nil ∧
    SameHostRedirectPolicy (str "b.example.com") [str "a.example.com"] =
      some (Error.New "different host name is not allowed") := by
  refine ⟨?_, by decide, by decide⟩
  intro c o rest
  obtain ⟨a, ha⟩ := getHostname_total c
  obtain ⟨b, hb⟩ := getHostname_total o
  rw [SameHostRedirectPolicy_cons c o rest a b ha hb,
    SameHostRedirectPolicy_cons c o [] a b ha hb, ha, hb]
  by_cases h : a = b
  · simp [h, Error.nil_ne_New]
  · simp [h, (Error.nil_ne_New _).symm]

/-- C9: `NoRedirectPolicy()` returns, for every candidate and every chain (the empty chain
included), the error whose text is "auto redirect is disabled". -/
theorem NoRedirectPolicy_rejects (c : GoString) (chain : List GoString) :
    NoRedirectPolicy c chain = some (Error.New "auto redirect is disabled") ∧
    isRejected (NoRedirectPolicy c chain) = true :=
  ⟨rfl, rfl⟩

/-- C10: on every candidate and every non-empty chain each of the six policies returns a
result (no panic); `via[0]` is in range; `getHostname` and the `net.SplitHostPort` it calls
return on every string, the empty string included. -/
theorem policies_total (c : GoString) (via : List GoString) (hv : via ≠ []) :
    (∀ limit : Int, ∃ r, MaxRedirectPolicy limit c via = some r) ∧
    (∃ r, NoRedirectPolicy c via = some r) ∧
    (∃ r, SameDomainRedirectPolicy c via = some r) ∧
    (∃ r, SameHostRedirectPolicy c via = some r) ∧
    (∀ hosts : List GoString, ∃ p r,
      AllowedHostRedirectPolicy hosts = some p ∧ p c via = some r) ∧
    (∀ hosts : List GoString, ∃ p r,
      AllowedDomainRedirectPolicy hosts = some p ∧ p c via = some r) ∧
    (∃ o, chainAt via 0 = some o) ∧
    (∀ s : GoString, ∃ h, getHostname s = some h) ∧
    (∀ s : GoString, ∃ r, SplitHostPort s = some r) ∧
    getHostname [] = some [] := by
  cases via with
  | nil => exact absurd rfl hv
  | cons o rest =>
    refine ⟨?_, ⟨_, rfl⟩, ?_, ?_, ?_, ?_, ⟨o, by simp [chainAt]⟩, getHostname_total,
      SplitHostPort_total, by decide⟩
    · intro limit
      unfold MaxRedirectPolicy
      split_ifs <;> exact ⟨_, rfl⟩
    · obtain ⟨a, ha⟩ := getDomain_total c
      obtain ⟨b, hb⟩ := getDomain_total o
      exact ⟨_, SameDomainRedirectPolicy_cons c o rest a b ha hb⟩
    · obtain ⟨a, ha⟩ := getHostname_total c
      obtain ⟨b, hb⟩ := getHostname_total o
      exact ⟨_, SameHostRedirectPolicy_cons c o rest a b ha hb⟩
    · intro hosts
      obtain ⟨p, hp, hrun⟩ := AllowedHostRedirectPolicy_run hosts
      by_cases h : ∃ h ∈ hosts, getHostname h = getHostname c
      · exact ⟨p, _, hp, (hrun c (o :: rest)).1 h⟩
      · exact ⟨p, _, hp, (hrun c (o :: rest)).2 h⟩
    · intro hosts
      obtain ⟨p, hp, hrun⟩ := AllowedDomainRedirectPolicy_run hosts
      by_cases h : ∃ h ∈ hosts, getDomain h = getDomain c
      · exact ⟨p, _, hp, (hrun c (o :: rest)).1 h⟩
      · exact ⟨p, _, hp, (hrun c (o :: rest)).2 h⟩

/-- Witness for C10: a one-element chain. -/
theorem policies_total_witness :
    [str "imroc.cc"] ≠ [] ∧
    ∃ r, SameHostRedirectPolicy (str "www.imroc.cc") [str "imroc.cc"] = some r :=
  ⟨by decide, (policies_total (str "www.imroc.cc") [str "imroc.cc"] (by decide)).2.2.2.1⟩

/-! ## Lower-casing commutes with the host:port split -/

/-- A rune below `a` that is no capital letter is its own and only lower-case preimage. -/
theorem lowerRune_eq_iff_of_not_letter (c : Char) (hc : c.toNat < 97) (h0 : c.toNat ≠ 0)
    (hu : ¬ (65 ≤ c.toNat ∧ c.toNat ≤ 90)) (x : Rune) :
    lowerRune x = Rune.char c ↔ x = Rune.char c := by
  constructor
  · intro e
    cases x with
    | char d =>
      simp only [lowerRune, Rune.char.injEq] at e
      have e2 : (Char.ofNat (unicodeToLower d.toNat)).toNat = c.toNat := by rw [e]
      have e3 : unicodeToLower d.toNat = c.toNat := by
        rcases toNat_ofNat_cases (unicodeToLower d.toNat) with h | h
        · rw [← h, e2]
        · rw [h] at e2
          exact absurd e2.symm h0
      have e4 : unicodeToLower d.toNat = d.toNat := by
        rcases unicodeToLower_cases d.toNat with h | ⟨h, _⟩
        · exact h
        · omega
      have e5 : d = c := by
        rw [← Char.ofNat_toNat d, ← Char.ofNat_toNat c, ← e3, e4]
      rw [e5]
    | byte b =>
      simp only [lowerRune, Rune.char.injEq] at e
      have e2 : (Char.ofNat 0xFFFD).toNat = c.toNat := by rw [e]
      have e3 : (Char.ofNat 0xFFFD).toNat = 0xFFFD := by decide
      omega
  · intro e
    rw [e]
    simp only [lowerRune, Rune.char.injEq]
    have e2 : unicodeToLower c.toNat = c.toNat := by
      unfold unicodeToLower
      rw [if_pos (by omega), if_neg hu]
    rw [e2, Char.ofNat_toNat]

theorem lowerRune_eq_colon (x : Rune) : lowerRune x = Rune.char ':' ↔ x = Rune.char ':' :=
  lowerRune_eq_iff_of_not_letter ':' (by decide) (by decide) (by decide) x

theorem lowerRune_eq_open (x : Rune) : lowerRune x = Rune.char '[' ↔ x = Rune.char '[' :=
  lowerRune_eq_iff_of_not_letter '[' (by decide) (by decide) (by decide) x

theorem lowerRune_eq_close (x : Rune) : lowerRune x = Rune.char ']' ↔ x = Rune.char ']' :=
  lowerRune_eq_iff_of_not_letter ']' (by decide) (by decide) (by decide) x

theorem lowerRune_eq_dot (x : Rune) : lowerRune x = Rune.char '.' ↔ x = Rune.char '.' :=
  lowerRune_eq_iff_of_not_letter '.' (by decide) (by decide) (by decide) x

theorem IndexByte_ToLower (s : GoString) (c : Rune)
    (hc : ∀ x, lowerRune x = c ↔ x = c) : IndexByte (ToLower s) c = IndexByte s c := by
  induction s with
  | nil => rfl
  | cons x xs ih =>
    simp only [ToLower, List.map_cons, IndexByte] at ih ⊢
    rw [ih]
    by_cases h : x = c
    · rw [if_pos h, if_pos ((hc x).2 h)]
    · rw [if_neg h, if_neg (fun e => h ((hc x).1 e))]

theorem LastIndexByte_ToLower (s : GoString) (c : Rune)
    (hc : ∀ x, lowerRune x = c ↔ x = c) :
    LastIndexByte (ToLower s) c = LastIndexByte s c := by
  induction s with
  | nil => rfl
  | cons x xs ih =>
    simp only [ToLower, List.map_cons, LastIndexByte] at ih ⊢
    rw [ih]
    by_cases h : x = c
    · rw [if_pos h, if_pos ((hc x).2 h)]
    · rw [if_neg h, if_neg (fun e => h ((hc x).1 e))]

theorem byteAt_ToLower (s : GoString) (i : Int) :
    byteAt (ToLower s) i = (byteAt s i).map lowerRune := by
  unfold byteAt ToLower
  split_ifs
  · simp [List.get?_eq_getElem?]
  · rfl

theorem slice_ToLower (s : GoString) (lo hi : Int) :
    slice (ToLower s) lo hi = (slice s lo hi).map ToLower := by
  unfold slice ToLower
  simp only [List.length_map]
  split_ifs
  · simp [List.map_drop, List.map_take]
  · rfl

theorem ToLower_length (s : GoString) : (ToLower s).length = s.length := by
  simp [ToLower]

theorem splitHostPortTail_ToLower (s host : GoString) (i j k : Int) :
    splitHostPortTail (ToLower s) (ToLower host) i j k =
      (splitHostPortTail s host i j k).map lowerSplit := by
  unfold splitHostPortTail sliceFrom
  simp only [slice_ToLower, ToLower_length, Option.pure_def, Option.bind_eq_bind]
  cases slice s j s.length with
  | none => rfl
  | some sj =>
    simp only [Option.map_some', Option.some_bind, IndexByte_ToLower sj _ lowerRune_eq_open]
    split_ifs
    · rfl
    · cases slice s k s.length with
      | none => rfl
      | some sk =>
        simp only [Option.map_some', Option.some_bind,
          IndexByte_ToLower sk _ lowerRune_eq_close]
        split_ifs
        · rfl
        · cases slice s (i + 1) s.length with
          | none => rfl
          | some port => rfl

theorem lowerSplit_addrErr (why : String) : lowerSplit (addrErr why) = addrErr why := rfl

/-- Lower-casing the argument of `net.SplitHostPort` lower-cases the host and the port it
returns and leaves the error alone. -/
theorem SplitHostPort_ToLower (s : GoString) :
    SplitHostPort (ToLower s) = (SplitHostPort s).map lowerSplit := by
  unfold SplitHostPort
  simp only [LastIndexByte_ToLower s _ lowerRune_eq_colon,
    IndexByte_ToLower s _ lowerRune_eq_close, ToLower_length, byteAt_ToLower,
    Option.pure_def, Option.bind_eq_bind]
  by_cases hi : LastIndexByte s (Rune.char ':') < 0
  · rw [if_pos hi, if_pos hi]
    rfl
  · rw [if_neg hi, if_neg hi]
    cases byteAt s 0 with
    | none => rfl
    | some c0 =>
      simp only [Option.map_some', Option.some_bind]
      by_cases hb : c0 = Rune.char '['
      · rw [if_pos hb, if_pos ((lowerRune_eq_open c0).2 hb)]
        by_cases h1 : IndexByte s (Rune.char ']') < 0
        · rw [if_pos h1, if_pos h1]
          rfl
        · rw [if_neg h1, if_neg h1]
          by_cases h2 : IndexByte s (Rune.char ']') + 1 = (s.length : Int)
          · rw [if_pos h2, if_pos h2]
            rfl
          · rw [if_neg h2, if_neg h2]
            by_cases h3 : IndexByte s (Rune.char ']') + 1 = LastIndexByte s (Rune.char ':')
            · rw [if_pos h3, if_pos h3, slice_ToLower]
              cases slice s 1 (IndexByte s (Rune.char ']')) with
              | none => rfl
              | some host =>
                simp only [Option.map_some', Option.some_bind]
                exact splitHostPortTail_ToLower s host _ _ _
            · rw [if_neg h3, if_neg h3]
              cases byteAt s (IndexByte s (Rune.char ']') + 1) with
              | none => rfl
              | some c =>
                simp only [Option.map_some', Option.some_bind]
                by_cases hc : c = Rune.char ':'
                · rw [if_pos hc, if_pos ((lowerRune_eq_colon c).2 hc)]
                  rfl
                · rw [if_neg hc, if_neg (fun e => hc ((lowerRune_eq_colon c).1 e))]
                  rfl
      · rw [if_neg hb, if_neg (fun e => hb ((lowerRune_eq_open c0).1 e))]
        unfold sliceTo
        rw [slice_ToLower]
        cases slice s 0 (LastIndexByte s (Rune.char ':')) with
        | none => rfl
        | some host =>
          simp only [Option.map_some', Option.some_bind,
            IndexByte_ToLower host _ lowerRune_eq_colon]
          split_ifs
          · rfl
          · exact splitHostPortTail_ToLower s host _ _ _

/-- The function `getHostname` does not see the letter case of its argument. -/
theorem getHostname_ToLower (s : GoString) : getHostname (ToLower s) = getHostname s := by
  rw [getHostname_eq, getHostname_eq, IndexByte_ToLower s _ lowerRune_eq_colon,
    SplitHostPort_ToLower, ToLower_idem]
  split_ifs
  · cases SplitHostPort s with
    | none => rfl
    | some r =>
      simp only [Option.map_some', Option.some_bind, lowerSplit, ToLower_idem]
  · rfl

theorem getHostname_congr_of_ToLower {a b : GoString} (h : ToLower a = ToLower b) :
    getHostname a = getHostname b := by
  rw [← getHostname_ToLower a, ← getHostname_ToLower b, h]

theorem getDomain_congr {a b : GoString} (h : getHostname a = getHostname b) :
    getDomain a = getDomain b := by
  obtain ⟨x, hx⟩ := getHostname_total a
  rw [getDomain_eq a x hx, getDomain_eq b x (h ▸ hx)]

/-- Splitting commutes with lower-casing, the separator `.` being no letter. -/
theorem Split_ToLower (s : GoString) :
    Split (ToLower s) (Rune.char '.') = (Split s (Rune.char '.')).map ToLower := by
  induction s with
  | nil => rfl
  | cons x xs ih =>
    simp only [ToLower, List.map_cons, Split] at ih ⊢
    by_cases h : x = Rune.char '.'
    · rw [if_pos h, if_pos ((lowerRune_eq_dot x).2 h), ih]
      rfl
    · rw [if_neg h, if_neg (fun e => h ((lowerRune_eq_dot x).1 e)), ih]
      cases Split xs (Rune.char '.') with
      | nil => rfl
      | cons q qs => rfl

/-! ## The rejection texts -/

theorem stoppedAfter_eq (n : Int) : stoppedAfter n = Error.New (stoppedAfterText n) := rfl

theorem stoppedAfterText_head (n : Int) : (stoppedAfterText n).data.head? = some 's' := by
  simp only [stoppedAfterText, String.data_append]
  rfl

theorem stoppedAfterText_ne (n : Int) (t : String) (ht : t.data.head? ≠ some 's') :
    stoppedAfterText n ≠ t := by
  intro e
  apply ht
  rw [← e]
  exact stoppedAfterText_head n

theorem SameHostRedirectPolicy_result (c o : GoString) (rest : List GoString) :
    SameHostRedirectPolicy c (o :: rest) = some Error.nil ∨
    SameHostRedirectPolicy c (o :: rest) =
      some (Error.New "different host name is not allowed") := by
  obtain ⟨a, ha⟩ := getHostname_total c
  obtain ⟨b, hb⟩ := getHostname_total o
  rw [SameHostRedirectPolicy_cons c o rest a b ha hb]
  split_ifs
  · exact Or.inr rfl
  · exact Or.inl rfl

theorem SameDomainRedirectPolicy_result (c o : GoString) (rest : List GoString) :
    SameDomainRedirectPolicy c (o :: rest) = some Error.nil ∨
    SameDomainRedirectPolicy c (o :: rest) =
      some (Error.New "different domain name is not allowed") := by
  obtain ⟨a, ha⟩ := getDomain_total c
  obtain ⟨b, hb⟩ := getDomain_total o
  rw [SameDomainRedirectPolicy_cons c o rest a b ha hb]
  split_ifs
  · exact Or.inr rfl
  · exact Or.inl rfl

/-! ## The claims, continued -/

/-- C11: if `c` and `c2` differ only in letter case (they are equal after
`strings.ToLower`, which lower-cases every Unicode letter), and so do `o` and `o2`, then
`SameHostRedirectPolicy()` returns on `(c, [o])` what it returns on `(c2, [o2])`, and so
does `SameDomainRedirectPolicy()`; in particular the accept/reject decisions agree. -/
theorem same_policies_case_insensitive (c c2 o o2 : GoString)
    (hc : ToLower c = ToLower c2) (ho : ToLower o = ToLower o2) :
    SameHostRedirectPolicy c [o] = SameHostRedirectPolicy c2 [o2] ∧
    SameDomainRedirectPolicy c [o] = SameDomainRedirectPolicy c2 [o2] ∧
    isAllowed (SameHostRedirectPolicy c [o]) = isAllowed (SameHostRedirectPolicy c2 [o2]) ∧
    isAllowed (SameDomainRedirectPolicy c [o]) =
      isAllowed (SameDomainRedirectPolicy c2 [o2]) := by
  have e1 := getHostname_congr_of_ToLower hc
  have e2 := getHostname_congr_of_ToLower ho
  obtain ⟨a, ha⟩ := getHostname_total c
  obtain ⟨b, hb⟩ := getHostname_total o
  obtain ⟨x, hx⟩ := getDomain_total c
  obtain ⟨y, hy⟩ := getDomain_total o
  have hs : SameHostRedirectPolicy c [o] = SameHostRedirectPolicy c2 [o2] := by
    rw [SameHostRedirectPolicy_cons c o [] a b ha hb,
      SameHostRedirectPolicy_cons c2 o2 [] a b (e1 ▸ ha) (e2 ▸ hb)]
  have hd : SameDomainRedirectPolicy c [o] = SameDomainRedirectPolicy c2 [o2] := by
    rw [SameDomainRedirectPolicy_cons c o [] x y hx hy,
      SameDomainRedirectPolicy_cons c2 o2 [] x y (getDomain_congr e1 ▸ hx)
        (getDomain_congr e2 ▸ hy)]
  exact ⟨hs, hd, by rw [hs], by rw [hd]⟩

/-- Witness for C11: hosts written in different letter case, one pair with a port, and a
pair that differs in the case of the letter `É`, which both policies allow. -/
theorem same_policies_case_insensitive_witness :
    SameHostRedirectPolicy (str "WWW.Example.COM:80") [str "www.EXAMPLE.com"] =
      SameHostRedirectPolicy (str "www.example.com:80") [str "WWW.example.COM"] ∧
    SameDomainRedirectPolicy (str "WWW.Example.COM:80") [str "www.EXAMPLE.com"] =
      SameDomainRedirectPolicy (str "www.example.com:80") [str "WWW.example.COM"] ∧
    SameHostRedirectPolicy (str "É.com") [str "é.com"] =
      SameHostRedirectPolicy (str "é.com") [str "é.com"] ∧
    SameHostRedirectPolicy (str "É.com") [str "é.com"] = some Error.nil ∧
    SameDomainRedirectPolicy (str "É.com") [str "é.com"] = some Error.nil :=
  ⟨(same_policies_case_insensitive (str "WWW.Example.COM:80") (str "www.example.com:80")
      (str "www.EXAMPLE.com") (str "WWW.example.COM") (by decide) (by decide)).1,
   (same_policies_case_insensitive (str "WWW.Example.COM:80") (str "www.example.com:80")
      (str "www.EXAMPLE.com") (str "WWW.example.COM") (by decide) (by decide)).2.1,
   (same_policies_case_insensitive (str "É.com") (str "é.com") (str "é.com") (str "é.com")
      (by decide) rfl).1,
   by decide, by decide⟩

/-- C12: for every integer `limit`, each policy returns `nil` or the error carrying its own
text, and the six texts ("stopped after limit redirects", "auto redirect is disabled",
"different domain name is not allowed", "different host name is not allowed", "redirect
host is not allowed", "redirect domain is not allowed") are non-empty and pairwise
different. -/
theorem rejection_reasons (limit : Int) :
    (∀ (c : GoString) (via : List GoString),
      MaxRedirectPolicy limit c via = some Error.nil ∨
      MaxRedirectPolicy limit c via = some (Error.New (stoppedAfterText limit))) ∧
    (∀ (c : GoString) (via : List GoString),
      NoRedirectPolicy c via = some (Error.New "auto redirect is disabled")) ∧
    (∀ (c o : GoString) (rest : List GoString),
      SameDomainRedirectPolicy c (o :: rest) = some Error.nil ∨
      SameDomainRedirectPolicy c (o :: rest) =
        some (Error.New "different domain name is not allowed")) ∧
    (∀ (c o : GoString) (rest : List GoString),
      SameHostRedirectPolicy c (o :: rest) = some Error.nil ∨
      SameHostRedirectPolicy c (o :: rest) =
        some (Error.New "different host name is not allowed")) ∧
    (∀ hosts : List GoString, ∃ p, AllowedHostRedirectPolicy hosts = some p ∧
      ∀ (c : GoString) (via : List GoString), p c via = some Error.nil ∨
        p c via = some (Error.New "redirect host is not allowed")) ∧
    (∀ hosts : List GoString, ∃ p, AllowedDomainRedirectPolicy hosts = some p ∧
      ∀ (c : GoString) (via : List GoString), p c via = some Error.nil ∨
        p c via = some (Error.New "redirect domain is not allowed")) ∧
    (∀ t ∈ [stoppedAfterText limit, "auto redirect is disabled",
        "different domain name is not allowed", "different host name is not allowed",
        "redirect host is not allowed", "redirect domain is not allowed"], t ≠ "") ∧
    [stoppedAfterText limit, "auto redirect is disabled",
      "different domain name is not allowed", "different host name is not allowed",
      "redirect host is not allowed", "redirect domain is not allowed"].Nodup := by
  refine ⟨?_, fun _ _ => rfl, SameDomainRedirectPolicy_result, SameHostRedirectPolicy_result,
    ?_, ?_, ?_, ?_⟩
  · intro c via
    unfold MaxRedirectPolicy
    split_ifs
    · exact Or.inr rfl
    · exact Or.inl rfl
  · intro hosts
    obtain ⟨p, hp, hrun⟩ := AllowedHostRedirectPolicy_run hosts
    refine ⟨p, hp, fun c via => ?_⟩
    by_cases h : ∃ h ∈ hosts, getHostname h = getHostname c
    · exact Or.inl ((hrun c via).1 h)
    · exact Or.inr ((hrun c via).2 h)
  · intro hosts
    obtain ⟨p, hp, hrun⟩ := AllowedDomainRedirectPolicy_run hosts
    refine ⟨p, hp, fun c via => ?_⟩
    by_cases h : ∃ h ∈ hosts, getDomain h = getDomain c
    · exact Or.inl ((hrun c via).1 h)
    · exact Or.inr ((hrun c via).2 h)
  · intro t ht
    rw [List.mem_cons] at ht
    rcases ht with e | ht
    · rw [e]
      exact stoppedAfterText_ne limit "" (by decide)
    · revert t
      decide
  · rw [List.nodup_cons]
    constructor
    · intro hmem
      rw [List.mem_cons] at hmem
      rcases hmem with e | hmem
      · exact stoppedAfterText_ne limit _ (by decide) e
      rw [List.mem_cons] at hmem
      rcases hmem with e | hmem
      · exact stoppedAfterText_ne limit _ (by decide) e
      rw [List.mem_cons] at hmem
      rcases hmem with e | hmem
      · exact stoppedAfterText_ne limit _ (by decide) e
      rw [List.mem_cons] at hmem
      rcases hmem with e | hmem
      · exact stoppedAfterText_ne limit _ (by decide) e
      rw [List.mem_singleton] at hmem
      exact stoppedAfterText_ne limit _ (by decide) hmem
    · decide

/-! ## Labels, strictness, key sets and the colon -/

theorem domainOf_three (h l1 l2 l3 : GoString) (hs : Split h (Rune.char '.') = [l1, l2, l3]) :
    domainOf h = l2 ++ (Rune.char '.') :: l3 := by
  unfold domainOf
  rw [hs]
  rfl

theorem getHostname_of_no_colon {s : GoString} (h : (Rune.char ':') ∉ s) :
    getHostname s = some (ToLower s) := by
  rw [getHostname_eq, if_neg]
  rw [IndexByte_of_not_mem h]
  decide

theorem hostSet_eq_hostKeySet (hosts : List GoString) (m : GoMap) :
    hostSet hosts m = hostKeySet hosts m := by
  induction hosts generalizing m with
  | nil => rfl
  | cons h hs ih =>
    obtain ⟨x, hx⟩ := getHostname_total h
    simp only [hostSet, hostKeySet, hx, Option.bind_eq_bind, Option.some_bind,
      getHostname_lower hx]
    exact ih _

theorem domainSet_eq_domainKeySet (hosts : List GoString) (m : GoMap) :
    domainSet hosts m = domainKeySet hosts m := by
  induction hosts generalizing m with
  | nil => rfl
  | cons h hs ih =>
    obtain ⟨x, hx⟩ := getDomain_total h
    simp only [domainSet, domainKeySet, hx, Option.bind_eq_bind, Option.some_bind,
      getDomain_lower hx]
    exact ih _

theorem splitHostPortTail_host (s host : GoString) (i j k : Int)
    (r : GoString × GoString × Error) (hr : splitHostPortTail s host i j k = some r) :
    r.1 = [] ∨ r.1 = host := by
  unfold splitHostPortTail at hr
  simp only [Option.pure_def, Option.bind_eq_bind] at hr
  cases h1 : sliceFrom s j with
  | none => simp [h1] at hr
  | some sj =>
    rw [h1, Option.some_bind] at hr
    split_ifs at hr
    · simp only [Option.some.injEq] at hr
      rw [← hr]
      exact Or.inl rfl
    · cases h2 : sliceFrom s k with
      | none => simp [h2] at hr
      | some sk =>
        rw [h2, Option.some_bind] at hr
        split_ifs at hr
        · simp only [Option.some.injEq] at hr
          rw [← hr]
          exact Or.inl rfl
        · cases h3 : sliceFrom s (i + 1) with
          | none => simp [h3] at hr
          | some port =>
            rw [h3, Option.some_bind] at hr
            simp only [Option.some.injEq] at hr
            rw [← hr]
            exact Or.inr rfl

/-- On a string that does not begin with `[`, `net.SplitHostPort` returns as host either the
empty string (an error) or the colon-free text before the last colon. -/
theorem SplitHostPort_no_bracket (s : GoString) (hb : s.head? ≠ some (Rune.char '['))
    (r : GoString × GoString × Error) (hr : SplitHostPort s = some r) :
    r.1 = [] ∨ (r.1 = beforeLastColon s ∧ (Rune.char ':') ∉ r.1) := by
  have hlt := LastIndexByte_lt s (Rune.char ':')
  unfold SplitHostPort at hr
  simp only [Option.pure_def, Option.bind_eq_bind] at hr
  by_cases hi : LastIndexByte s (Rune.char ':') < 0
  · rw [if_pos hi] at hr
    simp only [Option.some.injEq] at hr
    rw [← hr]
    exact Or.inl rfl
  · rw [if_neg hi] at hr
    cases s with
    | nil => simp [LastIndexByte] at hi
    | cons x xs =>
      have hx : x ≠ (Rune.char '[') := by
        intro e
        apply hb
        simp [e]
      have h0 : byteAt (x :: xs) 0 = some x := by simp [byteAt]
      rw [h0, Option.some_bind, if_neg hx,
        sliceTo_eq _ _ ⟨by omega, by omega⟩, Option.some_bind] at hr
      have hbl : beforeLastColon (x :: xs) =
          List.take (LastIndexByte (x :: xs) (Rune.char ':')).toNat (x :: xs) := by
        unfold beforeLastColon
        simp only []
        rw [if_pos (by omega)]
      split_ifs at hr with hc
      · simp only [Option.some.injEq] at hr
        rw [← hr]
        exact Or.inl rfl
      · rcases splitHostPortTail_host _ _ _ _ _ r hr with e | e
        · exact Or.inl e
        · refine Or.inr ⟨by rw [e, hbl], ?_⟩
          rw [e]
          exact (IndexByte_neg_iff _ (Rune.char ':')).1 (by omega)

theorem not_mem_ToLower_colon {s : GoString} (h : (Rune.char ':') ∉ s) : (Rune.char ':') ∉ ToLower s := by
  intro hm
  simp only [ToLower, List.mem_map] at hm
  obtain ⟨x, hx, e⟩ := hm
  rw [(lowerRune_eq_colon x).1 e] at hx
  exact h hx

/-- C13: `getDomain("foo.co.uk")` is `co.uk`, so `SameDomainRedirectPolicy()` allows the
redirect from `foo.co.uk` to `bar.co.uk`; in general, when the hostnames of the candidate
and of `chain[0]` have exactly three labels each and agree on the last two, both domains
are these two labels joined with `.` and the redirect is allowed.  For hosts written without
a colon the labels are those of the host string itself, compared ignoring letter case. -/
theorem SameDomainRedirectPolicy_three_labels :
    getDomain (str "foo.co.uk") = some (str "co.uk") ∧
    SameDomainRedirectPolicy (str "bar.co.uk") [str "foo.co.uk"] = some Error.nil ∧
    (∀ (c o : GoString) (rest : List GoString) (hc ho l1 m1 l2 l3 : GoString),
      getHostname c = some hc → getHostname o = some ho →
      Split hc (Rune.char '.') = [l1, l2, l3] → Split ho (Rune.char '.') = [m1, l2, l3] →
      getDomain c = some (l2 ++ (Rune.char '.') :: l3) ∧ getDomain o = some (l2 ++ (Rune.char '.') :: l3) ∧
      SameDomainRedirectPolicy c (o :: rest) = some Error.nil) ∧
    (∀ (c o : GoString) (rest : List GoString) (l1 m1 l2 l3 k2 k3 : GoString),
      (Rune.char ':') ∉ c → (Rune.char ':') ∉ o →
      Split c (Rune.char '.') = [l1, l2, l3] → Split o (Rune.char '.') = [m1, k2, k3] →
      ToLower l2 = ToLower k2 → ToLower l3 = ToLower k3 →
      SameDomainRedirectPolicy c (o :: rest) = some Error.nil) := by
  have main : ∀ (c o : GoString) (rest : List GoString) (hc ho l1 m1 l2 l3 : GoString),
      getHostname c = some hc → getHostname o = some ho →
      Split hc (Rune.char '.') = [l1, l2, l3] → Split ho (Rune.char '.') = [m1, l2, l3] →
      getDomain c = some (l2 ++ (Rune.char '.') :: l3) ∧ getDomain o = some (l2 ++ (Rune.char '.') :: l3) ∧
      SameDomainRedirectPolicy c (o :: rest) = some Error.nil := by
    intro c o rest hc ho l1 m1 l2 l3 h1 h2 h3 h4
    have d1 : getDomain c = some (l2 ++ (Rune.char '.') :: l3) := by
      rw [getDomain_eq c hc h1, domainOf_three hc l1 l2 l3 h3]
    have d2 : getDomain o = some (l2 ++ (Rune.char '.') :: l3) := by
      rw [getDomain_eq o ho h2, domainOf_three ho m1 l2 l3 h4]
    refine ⟨d1, d2, ?_⟩
    rw [SameDomainRedirectPolicy_cons c o rest _ _ d1 d2]
    simp
  refine ⟨by decide, by decide, main, ?_⟩
  intro c o rest l1 m1 l2 l3 k2 k3 hc ho h3 h4 e2 e3
  refine (main c o rest (ToLower c) (ToLower o) (ToLower l1) (ToLower m1) (ToLower l2)
    (ToLower l3) (getHostname_of_no_colon hc) (getHostname_of_no_colon ho) ?_ ?_).2.2
  · rw [Split_ToLower, h3]
    rfl
  · rw [Split_ToLower, h4, e2, e3]
    rfl

/-- Witness for C13: `bar.co.uk` after `foo.co.uk`, both with three labels ending in
`co`, `uk`. -/
theorem SameDomainRedirectPolicy_three_labels_witness :
    SameDomainRedirectPolicy (str "bar.co.uk:443") [str "Foo.co.uk"] = some Error.nil ∧
    SameDomainRedirectPolicy (str "bar.co.UK") [str "foo.CO.uk"] = some Error.nil :=
  ⟨(SameDomainRedirectPolicy_three_labels.2.2.1 (str "bar.co.uk:443") (str "Foo.co.uk") []
      (str "bar.co.uk") (str "foo.co.uk") (str "bar") (str "foo") (str "co")
      (str "uk") (by decide) (by decide) (by decide) (by decide)).2.2,
   SameDomainRedirectPolicy_three_labels.2.2.2 (str "bar.co.UK") (str "foo.CO.uk") []
      (str "bar") (str "foo") (str "co") (str "UK") (str "CO") (str "uk")
      (by decide) (by decide) (by decide) (by decide) (by decide) (by decide)⟩

/-- C14: on every candidate and non-empty chain, a redirect that `SameHostRedirectPolicy()`
allows is allowed by `SameDomainRedirectPolicy()`, because two hosts with the same
`getHostname` have the same `getDomain`; and for every list `hosts`, a candidate that
`AllowedHostRedirectPolicy(hosts...)` allows is allowed by
`AllowedDomainRedirectPolicy(hosts...)`. -/
theorem host_policies_stricter :
    (∀ (c o : GoString) (rest : List GoString),
      SameHostRedirectPolicy c (o :: rest) = some Error.nil →
      SameDomainRedirectPolicy c (o :: rest) = some Error.nil) ∧
    (∀ a b : GoString, getHostname a = getHostname b → getDomain a = getDomain b) ∧
    (∀ (hosts : List GoString) (c : GoString) (via : List GoString),
      runPolicy (AllowedHostRedirectPolicy hosts) c via = some Error.nil →
      runPolicy (AllowedDomainRedirectPolicy hosts) c via = some Error.nil) := by
  refine ⟨?_, fun a b h => getDomain_congr h, ?_⟩
  · intro c o rest h
    obtain ⟨a, ha⟩ := getHostname_total c
    obtain ⟨b, hb⟩ := getHostname_total o
    obtain ⟨x, hx⟩ := getDomain_total c
    have hab : a = b := by
      rw [SameHostRedirectPolicy_cons c o rest a b ha hb] at h
      by_contra hne
      rw [if_pos hne] at h
      exact Error.nil_ne_New _ h.symm
    have hy : getDomain o = some x := by
      rw [← hx]
      exact (getDomain_congr (by rw [ha, hb, hab])).symm
    rw [SameDomainRedirectPolicy_cons c o rest x x hx hy]
    simp
  · intro hosts c via h
    obtain ⟨p, hp, hrun⟩ := AllowedHostRedirectPolicy_run hosts
    obtain ⟨q, hq, hrun2⟩ := AllowedDomainRedirectPolicy_run hosts
    rw [hp] at h
    rw [hq]
    have h2 : p c via = some Error.nil := h
    have hex : ∃ h ∈ hosts, getHostname h = getHostname c := by
      by_contra hne
      rw [(hrun c via).2 hne] at h2
      exact Error.nil_ne_New _ h2.symm
    obtain ⟨h0, hmem, e⟩ := hex
    exact (hrun2 c via).1 ⟨h0, hmem, getDomain_congr e⟩

/-- Witness for C14: the same host with and without a port, and an allow-list entry in
capitals. -/
theorem host_policies_stricter_witness :
    SameDomainRedirectPolicy (str "www.imroc.cc:443") [str "WWW.imroc.cc"] =
      some Error.nil ∧
    runPolicy (AllowedDomainRedirectPolicy [str "Example.COM"])
      (str "example.com:8443") [] = some Error.nil :=
  ⟨host_policies_stricter.1 (str "www.imroc.cc:443") (str "WWW.imroc.cc") [] (by decide),
   host_policies_stricter.2.2 [str "Example.COM"] (str "example.com:8443") []
     (by decide)⟩

/-- C15: for every string `s`, lower-casing `getHostname(s)` gives `getHostname(s)` and
lower-casing `getDomain(s)` gives `getDomain(s)`; so the loops of
`AllowedHostRedirectPolicy` and `AllowedDomainRedirectPolicy` build the same set with the
extra `strings.ToLower` as without it, and that set has exactly the keys `getHostname(h)`
(respectively `getDomain(h)`) for `h` in `hosts`.  Lower-casing is that of
`strings.ToLower`: every Unicode letter, and U+FFFD for a byte outside a well-formed rune;
`ÉXAMPLE.com:80` has the hostname `éxample.com`. -/
theorem allow_list_keys_normalised :
    (∀ s : GoString, ∃ h, getHostname s = some h ∧ ToLower h = h) ∧
    (∀ s : GoString, ∃ d, getDomain s = some d ∧ ToLower d = d) ∧
    (∀ (hosts : List GoString) (m : GoMap), hostSet hosts m = hostKeySet hosts m) ∧
    (∀ (hosts : List GoString) (m : GoMap), domainSet hosts m = domainKeySet hosts m) ∧
    (∀ hosts : List GoString, ∃ m, hostSet hosts GoMap.empty = some m ∧
      ∀ k, m.has k = true ↔ ∃ h ∈ hosts, getHostname h = some k) ∧
    (∀ hosts : List GoString, ∃ m, domainSet hosts GoMap.empty = some m ∧
      ∀ k, m.has k = true ↔ ∃ h ∈ hosts, getDomain h = some k) ∧
    getHostname (str "ÉXAMPLE.com:80") = some (str "éxample.com") ∧
    ToLower (str "éxample.com") = str "éxample.com" ∧
    getHostname [Rune.char 'A', Rune.byte 0xFF] = some [Rune.char 'a', Rune.char (Char.ofNat 0xFFFD)] ∧
    ToLower [Rune.char 'a', Rune.char (Char.ofNat 0xFFFD)] = [Rune.char 'a', Rune.char (Char.ofNat 0xFFFD)] := by
  refine ⟨?_, ?_, hostSet_eq_hostKeySet, domainSet_eq_domainKeySet, ?_, ?_, by decide,
    by decide, by decide, by decide⟩
  · intro s
    obtain ⟨h, hh⟩ := getHostname_total s
    exact ⟨h, hh, getHostname_lower hh⟩
  · intro s
    obtain ⟨d, hd⟩ := getDomain_total s
    exact ⟨d, hd, getDomain_lower hd⟩
  · intro hosts
    obtain ⟨m, hm, hk⟩ := hostSet_spec hosts GoMap.empty
    refine ⟨m, hm, fun k => ?_⟩
    rw [hk k, GoMap.has_empty]
    simp
  · intro hosts
    obtain ⟨m, hm, hk⟩ := domainSet_spec hosts GoMap.empty
    refine ⟨m, hm, fun k => ?_⟩
    rw [hk k, GoMap.has_empty]
    simp

/-- C16: for every host string `s` that begins with neither `:` nor `[`, `getHostname(s)`
contains no `:`; when `s` has no colon the result is `s` lower-cased, and when it has one
the result is the empty string (the split failed) or the lower-cased text before the last
colon. -/
theorem getHostname_no_colon (s : GoString) (h1 : s.head? ≠ some (Rune.char ':'))
    (h2 : s.head? ≠ some (Rune.char '[')) :
    ∃ h, getHostname s = some h ∧ (Rune.char ':') ∉ h ∧
      ((Rune.char ':') ∉ s → h = ToLower s) ∧
      ((Rune.char ':') ∈ s → h = [] ∨ h = ToLower (beforeLastColon s)) := by
  by_cases hm : (Rune.char ':') ∈ s
  · have hpos := IndexByte_pos_of_head hm h1
    obtain ⟨r, hr⟩ := SplitHostPort_total s
    refine ⟨ToLower r.1, ?_, ?_, fun hn => absurd hm hn, fun _ => ?_⟩
    · rw [getHostname_eq, if_pos hpos, hr]
      rfl
    · rcases SplitHostPort_no_bracket s h2 r hr with e | ⟨_, e⟩
      · rw [e]
        simp [ToLower]
      · exact not_mem_ToLower_colon e
    · rcases SplitHostPort_no_bracket s h2 r hr with e | ⟨e, _⟩
      · rw [e]
        exact Or.inl rfl
      · rw [e]
        exact Or.inr rfl
  · exact ⟨ToLower s, getHostname_of_no_colon hm, not_mem_ToLower_colon hm, fun _ => rfl,
      fun h => absurd h hm⟩

/-- Witness for C16: a host with a port, and a host with two colons on which the split
fails. -/
theorem getHostname_no_colon_witness :
    (∃ h, getHostname (str "Example.COM:8443") = some h ∧ (Rune.char ':') ∉ h) ∧
    (∃ h, getHostname (str "a:b:c") = some h ∧ (Rune.char ':') ∉ h) := by
  obtain ⟨h, hh, hn, _⟩ := getHostname_no_colon (str "Example.COM:8443") (by decide)
    (by decide)
  obtain ⟨k, hk, kn, _⟩ := getHostname_no_colon (str "a:b:c") (by decide) (by decide)
  exact ⟨⟨h, hh, hn⟩, ⟨k, hk, kn⟩⟩

end Req
